import Mathlib

/-!
Shallow embedding of the Builder/Slice binary-encoding core of
tonstack/tontools-js (src/boc/builder.ts, src/boc/slice.ts,
src/contract/msg-template.ts).

Modelling conventions:
* `type Bit = 0 | 1` is modelled as `Bool` (`true` = bit 1, `false` = bit 0).
* JavaScript `BigInt` values are modelled as `Int`; `BigInt` arithmetic is
  exact, `>>` is arithmetic shift (floor division) and `& 1n` is the
  two.s-complement low bit (floor modulus).
* A thrown JS exception is modelled with `Except`.  Builder methods mutate
  `this` and then possibly throw, so a failing Builder method returns
  `Except.error (err, b)` where `b` is the state of the builder object at the
  moment of the throw (the state a caller observes after catching).  Slice
  loaders return `Except Err (value × Slice)`; preloaders never produce a new
  slice, matching the source, which only ever calls the non-mutating
  `Array.prototype.slice` in them.
* The JS `1 << (size - 1)` in `Slice.loadInt` is 32-bit integer arithmetic
  (shift count taken mod 32, result wrapped to a signed 32-bit value); it is
  modelled exactly by `jsShlOne`.
-/

/-- The failure kinds of the core (each `throw new Error(...)` site in the
source is mapped to the error kind named for it in the specification). -/
inductive Err where
  | bitOverflow
  | refOverflow
  | invalidBit
  | rangeError
  | negativeAmount
  | invalidAddressFlag
  | malformedPadding
deriving DecidableEq, Repr

/-- `type Bit = 0 | 1`: `true` is the bit 1, `false` the bit 0. -/
abbrev Bit := Bool

/-- The finalized immutable node (`Cell` from src/boc/cell.ts, an external
collaborator): a snapshot of bits and child references.  The is-exotic flag is
always `false` in this core and is omitted. -/
inductive Cell where
  | mk (bits : List Bit) (refs : List Cell)

/-- The bit snapshot of a cell. -/
def Cell.bits : Cell → List Bit
  | .mk b _ => b

/-- The reference snapshot of a cell. -/
def Cell.refs : Cell → List Cell
  | .mk _ r => r

/-- `Slice`: a consumable view over a node's bits and refs
(src/boc/slice.ts, constructor). -/
structure Slice where
  bits : List Bit
  refs : List Cell

/-- `Cell.parse()`: a fresh `Slice` over copies of the cell's bits/refs. -/
def Cell.parse (c : Cell) : Slice :=
  ⟨c.bits, c.refs⟩

/-- `Builder` (src/boc/builder.ts): `_size` (capacity), `_bits`, `_refs`. -/
structure Builder where
  size : Nat
  bits : List Bit
  refs : List Cell

/-- `new Builder(size = 1023)`. -/
def Builder.new (size : Nat := 1023) : Builder :=
  ⟨size, [], []⟩

/-- `get remainder(): number { return this._size - this._bits.length }`.
JS subtraction may go negative, hence `Int`. -/
def Builder.remainder (b : Builder) : Int :=
  (b.size : Int) - (b.bits.length : Int)

/-- `cell()`: a finalized node built from copies of the current bits/refs. -/
def Builder.cell (b : Builder) : Cell :=
  .mk b.bits b.refs

/-- `storeBit(bit)`.  The runtime guard rejecting values other than 0/1
(`InvalidBit`) is unreachable for arguments of the declared type
`Bit = 0 | 1`, which `Bool` models; the remaining behaviour is
`checkBitsOverflow(1)` followed by the push. -/
def Builder.storeBit (b : Builder) (bit : Bit) : Except (Err × Builder) Builder :=
  if (1 : Int) > b.remainder then .error (.bitOverflow, b)
  else .ok ⟨b.size, b.bits ++ [bit], b.refs⟩

/-- `storeRef(ref)`: `checkRefsOverflow(1)` then push. -/
def Builder.storeRef (b : Builder) (ref : Cell) : Except (Err × Builder) Builder :=
  if (1 : Int) > 4 - (b.refs.length : Int) then .error (.refOverflow, b)
  else .ok ⟨b.size, b.bits, b.refs ++ [ref]⟩

/-- `bits.forEach(this.storeBit.bind(this))`: the element-wise loop of
`storeBits`, propagating the state at a throw. -/
def Builder.storeBitsAux : Builder → List Bit → Except (Err × Builder) Builder
  | b, [] => .ok b
  | b, x :: xs =>
    match b.storeBit x with
    | .ok b' => b'.storeBitsAux xs
    | .error e => .error e

/-- `storeBits(bits)`: `checkBitsOverflow(bits.length)` then the loop. -/
def Builder.storeBits (b : Builder) (bits : List Bit) : Except (Err × Builder) Builder :=
  if (bits.length : Int) > b.remainder then .error (.bitOverflow, b)
  else b.storeBitsAux bits

/-- The bit list built by `storeNumber`:
`[...Array(length)].map((_el, i) => Number(((value >> BigInt(i)) & 1n) === 1n)).reverse()`
(least-significant bit first, then reversed to most-significant first).
`value >> i` on BigInt is arithmetic shift, i.e. floor division by `2^i`,
and `& 1n` is the floor-modulus low bit. -/
def encodeBits (value : Int) (length : Nat) : List Bit :=
  (((List.range length).map (fun i => (value.fdiv (2 ^ i)) % 2 == 1)).reverse)

/-- `private storeNumber(value, length)`: build the bit list and `storeBits` it. -/
def Builder.storeNumber (b : Builder) (value : Int) (length : Nat) :
    Except (Err × Builder) Builder :=
  b.storeBits (encodeBits value length)

/-- `storeUint(value, length)`: range check `0 ≤ value < 2^length`
(`RangeError` otherwise), then `storeNumber`. -/
def Builder.storeUint (b : Builder) (value : Int) (length : Nat) :
    Except (Err × Builder) Builder :=
  if value < 0 ∨ value ≥ 2 ^ length then .error (.rangeError, b)
  else b.storeNumber value length

/-- `storeInt(value, length)`: `intBits = 1n << (length - 1n)`
(`= 2^(length-1)` for `length ≥ 1`; for `length = 0` the BigInt shift by `-1`
is a right shift, giving `0`), range check, then `storeNumber`. -/
def Builder.storeInt (b : Builder) (value : Int) (length : Nat) :
    Except (Err × Builder) Builder :=
  let intBits : Int := if length = 0 then 0 else 2 ^ (length - 1)
  if value < -intBits ∨ value ≥ intBits then .error (.rangeError, b)
  else b.storeNumber value length

/-- The per-byte loop of `storeBytes`:
`Uint8Array.from(value).forEach((byte) => this.storeUint(byte, 8))`.
`Uint8Array.from` wraps each element to 8 bits, i.e. `% 256`. -/
def Builder.storeBytesAux : Builder → List Nat → Except (Err × Builder) Builder
  | b, [] => .ok b
  | b, x :: xs =>
    match b.storeUint ((x % 256 : Nat) : Int) 8 with
    | .ok b' => b'.storeBytesAux xs
    | .error e => .error e

/-- `storeBytes(value)`: `checkBitsOverflow(value.length * 8)` then the loop. -/
def Builder.storeBytes (b : Builder) (value : List Nat) : Except (Err × Builder) Builder :=
  if ((value.length * 8 : Nat) : Int) > b.remainder then .error (.bitOverflow, b)
  else b.storeBytesAux value

/-- Modelled from the spec: `stringToBytes` (src/utils/helpers, not included
in the sources) encodes text as its UTF-8 byte sequence.  Text is represented
here by that byte sequence itself, so the encoder is the identity. -/
def stringToBytes (value : List Nat) : List Nat :=
  value

/-- `storeString(value)`: UTF-8 bytes via `storeBytes`. -/
def Builder.storeString (b : Builder) (value : List Nat) : Except (Err × Builder) Builder :=
  b.storeBytes (stringToBytes value)

/-- `Address` (external collaborator src/address.ts): a workchain id and a
256-bit (32-byte) hash.  `Address.NONE` (the null address) is modelled as
`Option.none` at use sites. -/
structure Address where
  workchain : Int
  hash : List Nat
deriving DecidableEq, Repr

/-- The refs loop of `storeSlice`: `refs.forEach((ref) => this.storeRef(ref))`. -/
def Builder.storeRefsAux : Builder → List Cell → Except (Err × Builder) Builder
  | b, [] => .ok b
  | b, x :: xs =>
    match b.storeRef x with
    | .ok b' => b'.storeRefsAux xs
    | .error e => .error e

/-- `storeSlice(slice)`: `checkBitsOverflow(bits.length)`,
`checkRefsOverflow(refs.length)`, `storeBits(bits)`, then store each ref. -/
def Builder.storeSlice (b : Builder) (slice : Slice) : Except (Err × Builder) Builder :=
  let bits := slice.bits
  let refs := slice.refs
  if (bits.length : Int) > b.remainder then .error (.bitOverflow, b)
  else if (refs.length : Int) > 4 - (b.refs.length : Int) then .error (.refOverflow, b)
  else
    match b.storeBits bits with
    | .ok b' => b'.storeRefsAux refs
    | .error e => .error e

/-- `storeAddress(address | null)`: null stores bits `0,0`; otherwise
`checkBitsOverflow(267)`, bits `1,0`, the anycast bit `0` (`storeUint(0, 1)`),
the 8-bit signed workchain (`storeInt`), and the 32 hash bytes (`storeBytes`). -/
def Builder.storeAddress (b : Builder) (address : Option Address) :
    Except (Err × Builder) Builder :=
  match address with
  | none => b.storeBits [false, false]
  | some a =>
    if (267 : Int) > b.remainder then .error (.bitOverflow, b)
    else
      match b.storeBits [true, false] with
      | .error e => .error e
      | .ok b1 =>
        match b1.storeUint 0 1 with
        | .error e => .error e
        | .ok b2 =>
          match b2.storeInt a.workchain 8 with
          | .error e => .error e
          | .ok b3 => b3.storeBytes a.hash

/-- The hex-digit count `BigInt(n).toString(16).length` of a non-negative
value (`1` for `0`, else the number of base-16 digits). -/
def hexLen (n : Nat) : Nat :=
  if n < 16 then 1 else hexLen (n / 16) + 1
termination_by n
decreasing_by exact Nat.div_lt_self (by omega) (by omega)

/-- `storeCoins(coins)` with `Coins` (external) modelled by its arbitrary
precision nanocoin value: `NegativeAmount` if negative; a lone 4-bit `0` if
zero; otherwise `length = Math.ceil(hexDigits / 2)` bytes,
`checkBitsOverflow(4 + length * 8)`, the 4-bit length nibble
(`storeUint(length, 4)`), then the magnitude (`storeUint(nano, length * 8)`). -/
def Builder.storeCoins (b : Builder) (coins : Int) : Except (Err × Builder) Builder :=
  if coins < 0 then .error (.negativeAmount, b)
  else if coins = 0 then b.storeUint 0 4
  else
    let length := (hexLen coins.toNat + 1) / 2
    let size := length * 8
    let nano := coins
    if ((4 + size : Nat) : Int) > b.remainder then .error (.bitOverflow, b)
    else
      match b.storeUint (length : Int) 4 with
      | .ok b1 => b1.storeUint nano size
      | .error e => .error e

/-- Static `Builder.augmentBits(bits, divider = 8)`:
`amount = divider - bits.length % divider`, `overage = [1, 0, ..., 0]` of
that length, appended only when `overage.length` is neither `0` nor
`divider`. -/
def Builder.augmentBits (bits : List Bit) (divider : Nat := 8) : List Bit :=
  let amount := divider - bits.length % divider
  let overage := (List.range amount).map (fun i => i == 0)
  if overage.length ≠ 0 ∧ overage.length ≠ divider then bits ++ overage else bits

/-- `Array.prototype.indexOf(1)` on a bit array, as an `Option` instead of the
JS `-1` not-found sentinel. -/
def indexOfTrue : List Bit → Option Nat
  | [] => none
  | b :: rest => if b then some 0 else (indexOfTrue rest).map (· + 1)

/-- Static `Builder.rollbackBits(bits)`: find the last-occurring `1` among the
last (at most) 7 bits (`bits.slice(-7).reverse().indexOf(1)`); `MalformedPadding`
if there is none, else drop that bit and everything after it
(`bits.splice(-(index + 1))`). -/
def Builder.rollbackBits (bits : List Bit) : Except Err (List Bit) :=
  match indexOfTrue ((bits.drop (bits.length - 7)).reverse) with
  | none => .error .malformedPadding
  | some index => .ok (bits.take (bits.length - (index + 1)))

/-! ### Slice operations (src/boc/slice.ts) -/

/-- `skip(size)`: drop the first `size` bits, `BitOverflow` if fewer remain. -/
def Slice.skip (s : Slice) (size : Nat) : Except Err Slice :=
  if s.bits.length < size then .error .bitOverflow
  else .ok ⟨s.bits.drop size, s.refs⟩

/-- `loadRef()`: shift the first ref off, `RefOverflow` if none remain. -/
def Slice.loadRef (s : Slice) : Except Err (Cell × Slice) :=
  match s.refs with
  | [] => .error .refOverflow
  | r :: rest => .ok (r, ⟨s.bits, rest⟩)

/-- `preloadRef()`: the first ref, without removing it. -/
def Slice.preloadRef (s : Slice) : Except Err Cell :=
  match s.refs with
  | [] => .error .refOverflow
  | r :: _ => .ok r

/-- `loadBit()`: shift the first bit off, `BitOverflow` if empty. -/
def Slice.loadBit (s : Slice) : Except Err (Bit × Slice) :=
  match s.bits with
  | [] => .error .bitOverflow
  | b :: rest => .ok (b, ⟨rest, s.refs⟩)

/-- `preloadBit()`: the first bit, without removing it. -/
def Slice.preloadBit (s : Slice) : Except Err Bit :=
  match s.bits with
  | [] => .error .bitOverflow
  | b :: _ => .ok b

/-- `loadBits(size)`: splice the first `size` bits off; `BitOverflow` when
`size ≤ 0` or fewer bits remain. -/
def Slice.loadBits (s : Slice) (size : Nat) : Except Err (List Bit × Slice) :=
  if size = 0 ∨ s.bits.length < size then .error .bitOverflow
  else .ok (s.bits.take size, ⟨s.bits.drop size, s.refs⟩)

/-- `preloadBits(size)`: the first `size` bits, without removing them. -/
def Slice.preloadBits (s : Slice) (size : Nat) : Except Err (List Bit) :=
  if size = 0 ∨ s.bits.length < size then .error .bitOverflow
  else .ok (s.bits.take size)

/-- The decode of `loadUint`:
`bits.reverse().reduce((acc, bit, i) => (bit * (2 ** i) + acc), 0)`. -/
def decodeUint (bits : List Bit) : Nat :=
  (bits.reverse.enum).foldl (fun acc p => (if p.2 then 2 ^ p.1 else 0) + acc) 0

/-- `loadUint(size)`: read `size` bits most-significant first. -/
def Slice.loadUint (s : Slice) (size : Nat) : Except Err (Nat × Slice) :=
  match s.loadBits size with
  | .error e => .error e
  | .ok (bits, s') => .ok (decodeUint bits, s')

/-- `preloadUint(size)`: same decode, no cursor advance. -/
def Slice.preloadUint (s : Slice) (size : Nat) : Except Err Nat :=
  match s.preloadBits size with
  | .error e => .error e
  | .ok bits => .ok (decodeUint bits)

/-- The JS number wrapped to a signed 32-bit integer (`ToInt32`). -/
def jsToInt32 (n : Int) : Int :=
  (n + 2 ^ 31) % (2 ^ 32) - 2 ^ 31

/-- `1 << k` in JS number arithmetic: the shift count is taken modulo 32 and
the result is a signed 32-bit value. -/
def jsShlOne (k : Nat) : Int :=
  jsToInt32 (2 ^ (k % 32))

/-- `loadInt(size)`: `uint = loadUint(size)`, `int = 1 << (size - 1)` (32-bit
JS arithmetic!), then `uint >= int ? uint - int * 2 : uint`. -/
def Slice.loadInt (s : Slice) (size : Nat) : Except Err (Int × Slice) :=
  match s.loadUint size with
  | .error e => .error e
  | .ok (uint, s') =>
    let int := jsShlOne (size - 1)
    .ok (if (uint : Int) ≥ int then (uint : Int) - int * 2 else (uint : Int), s')

/-- `preloadInt(size)`: same decode, no cursor advance. -/
def Slice.preloadInt (s : Slice) (size : Nat) : Except Err Int :=
  match s.preloadUint size with
  | .error e => .error e
  | .ok uint =>
    let int := jsShlOne (size - 1)
    .ok (if (uint : Int) ≥ int then (uint : Int) - int * 2 else (uint : Int))

/-- Modelled from the spec: `bitsToBytes` (src/utils/helpers, not included in
the sources) packs bits into bytes, most-significant bit first within each
byte. -/
def bitsToBytes (bits : List Bit) : List Nat :=
  match bits with
  | [] => []
  | b :: rest => decodeUint (List.take 8 (b :: rest)) :: bitsToBytes (List.drop 7 rest)
termination_by bits.length
decreasing_by simp; omega

/-- `loadBytes(size)`: read `size` bits and pack them into bytes. -/
def Slice.loadBytes (s : Slice) (size : Nat) : Except Err (List Nat × Slice) :=
  match s.loadBits size with
  | .error e => .error e
  | .ok (bits, s') => .ok (bitsToBytes bits, s')

/-- `preloadBytes(size)`: same decode, no cursor advance. -/
def Slice.preloadBytes (s : Slice) (size : Nat) : Except Err (List Nat) :=
  match s.preloadBits size with
  | .error e => .error e
  | .ok bits => .ok (bitsToBytes bits)

/-- Modelled from the spec: `bytesToString` (src/utils/helpers, not included
in the sources) decodes a UTF-8 byte sequence into text; text is represented
here by its UTF-8 byte sequence, so the decoder is the identity. -/
def bytesToString (bytes : List Nat) : List Nat :=
  bytes

/-- `loadString(size = null)`: read `size` bits (all remaining bits when
`null`) and decode them as UTF-8 text. -/
def Slice.loadString (s : Slice) : Option Nat → Except Err (List Nat × Slice)
  | none =>
    match s.loadBytes s.bits.length with
    | .error e => .error e
    | .ok (bytes, s') => .ok (bytesToString bytes, s')
  | some n =>
    match s.loadBytes n with
    | .error e => .error e
    | .ok (bytes, s') => .ok (bytesToString bytes, s')

/-- `preloadString(size = null)`: same decode, no cursor advance. -/
def Slice.preloadString (s : Slice) : Option Nat → Except Err (List Nat)
  | none =>
    match s.preloadBytes s.bits.length with
    | .error e => .error e
    | .ok bytes => .ok (bytesToString bytes)
  | some n =>
    match s.preloadBytes n with
    | .error e => .error e
    | .ok bytes => .ok (bytesToString bytes)

/-- Modelled from the spec: `bitsToInt8` (src/utils/helpers, not included in
the sources) reads 8 bits, most-significant first, as an 8-bit
two.s-complement signed integer. -/
def bitsToInt8 (bits : List Bit) : Int :=
  let u := decodeUint bits
  if 128 ≤ u then (u : Int) - 256 else (u : Int)

/-- `loadAddress()`: peek the 2 flag bits; `00` consumes 2 bits and yields the
null address; `10` reads the 267-bit layout (flag 2, anycast 1, workchain 8,
hash 256 — the hash travels through `bitsToHex` and the `Address` constructor,
i.e. it is the 32 decoded bytes), consuming 267 bits; anything else is
`InvalidAddressFlag`. -/
def Slice.loadAddress (s : Slice) : Except Err (Option Address × Slice) :=
  match s.preloadBits 2 with
  | .error e => .error e
  | .ok flag =>
    if flag = [false, false] then
      match s.skip 2 with
      | .error e => .error e
      | .ok s' => .ok (none, s')
    else if flag = [true, false] then
      match s.preloadBits (2 + 1 + 8 + 256) with
      | .error e => .error e
      | .ok bits =>
        let rest := bits.drop 3
        let workchain := bitsToInt8 (rest.take 8)
        let hash := bitsToBytes ((rest.drop 8).take 256)
        match s.skip (2 + 1 + 8 + 256) with
        | .error e => .error e
        | .ok s' => .ok (some ⟨workchain, hash⟩, s')
    else .error .invalidAddressFlag

/-- `preloadAddress()`: same decode, no cursor advance. -/
def Slice.preloadAddress (s : Slice) : Except Err (Option Address) :=
  match s.preloadBits 2 with
  | .error e => .error e
  | .ok flag =>
    if flag = [false, false] then .ok none
    else if flag = [true, false] then
      match s.preloadBits (2 + 1 + 8 + 256) with
      | .error e => .error e
      | .ok bits =>
        let rest := bits.drop 3
        let workchain := bitsToInt8 (rest.take 8)
        let hash := bitsToBytes ((rest.drop 8).take 256)
        .ok (some ⟨workchain, hash⟩)
    else .error .invalidAddressFlag

/-- `loadCoins()`: peek the 4-bit length nibble; `0` consumes 4 bits and
yields zero; otherwise read `4 + length * 8` bits and decode the magnitude
(which travels through `bitsToHex` and the `Coins` constructor, i.e. it is
the big-endian unsigned value), consuming them. -/
def Slice.loadCoins (s : Slice) : Except Err (Int × Slice) :=
  match s.preloadUint 4 with
  | .error e => .error e
  | .ok length =>
    if length = 0 then
      match s.skip 4 with
      | .error e => .error e
      | .ok s' => .ok ((0 : Int), s')
    else
      let size := 4 + length * 8
      match s.preloadBits size with
      | .error e => .error e
      | .ok bits =>
        match s.skip size with
        | .error e => .error e
        | .ok s' => .ok ((decodeUint (bits.drop 4) : Int), s')

/-- `preloadCoins()`: same decode, no cursor advance. -/
def Slice.preloadCoins (s : Slice) : Except Err Int :=
  match s.preloadUint 4 with
  | .error e => .error e
  | .ok length =>
    if length = 0 then .ok (0 : Int)
    else
      let size := 4 + length * 8
      match s.preloadBits size with
      | .error e => .error e
      | .ok bits => .ok ((decodeUint (bits.drop 4) : Int))

/-! ### MsgTemplate.MessageX (src/contract/msg-template.ts) -/

/-- `MsgTemplate.MessageX({ info, init, body })`: a fresh default Builder,
`storeSlice(info.parse())`; for a present `init` a `1` bit, then inline
(`0` + `storeSlice`) when `builder.remainder - 1 >= init.bits.length`, else
by reference (`1` + `storeRef`); for a present `body` inline when
`builder.remainder >= body.bits.length`, else by reference; absent parts
store a `0` bit.  Returns `builder.cell()`. -/
def MsgTemplate.MessageX (info : Cell) (init : Option Cell) (body : Option Cell) :
    Except (Err × Builder) Cell :=
  let builder := Builder.new
  match builder.storeSlice info.parse with
  | .error e => .error e
  | .ok b0 =>
    let afterInit : Except (Err × Builder) Builder :=
      match init with
      | some i =>
        match b0.storeBit true with
        | .error e => .error e
        | .ok b1 =>
          if b1.remainder - 1 ≥ (i.bits.length : Int) then
            match b1.storeBit false with
            | .error e => .error e
            | .ok b2 => b2.storeSlice i.parse
          else
            match b1.storeBit true with
            | .error e => .error e
            | .ok b2 => b2.storeRef i
      | none => b0.storeBit false
    match afterInit with
    | .error e => .error e
    | .ok b3 =>
      let afterBody : Except (Err × Builder) Builder :=
        match body with
        | some bd =>
          if b3.remainder ≥ (bd.bits.length : Int) then
            match b3.storeBit false with
            | .error e => .error e
            | .ok b4 => b4.storeSlice bd.parse
          else
            match b3.storeBit true with
            | .error e => .error e
            | .ok b4 => b4.storeRef bd
        | none => b3.storeBit false
      match afterBody with
      | .error e => .error e
      | .ok bf => .ok bf.cell

/-! ### Characterization of the Builder primitives -/

/-- Casting a cons cell's length to `Int`. -/
theorem length_cons_cast (x : Bit) (xs : List Bit) :
    (((x :: xs).length : Nat) : Int) = (xs.length : Int) + 1 := by
  push_cast [List.length_cons]
  ring

/-- A fitting `storeBit` succeeds and appends the bit. -/
theorem Builder.storeBit_ok (b : Builder) (x : Bit) (h : (1 : Int) ≤ b.remainder) :
    b.storeBit x = .ok ⟨b.size, b.bits ++ [x], b.refs⟩ := by
  unfold Builder.storeBit
  rw [if_neg (by omega)]

/-- The success/failure characterization of the `storeBits` loop: when the
requested bits fit, every `storeBit` in the loop succeeds and the bits are
appended in order. -/
theorem Builder.storeBitsAux_ok (xs : List Bit) : ∀ b : Builder,
    (xs.length : Int) ≤ b.remainder →
    b.storeBitsAux xs = .ok ⟨b.size, b.bits ++ xs, b.refs⟩ := by
  induction xs with
  | nil => intro b _; simp [Builder.storeBitsAux]
  | cons x xs ih =>
    intro b h
    have hc := length_cons_cast x xs
    have hx : (0 : Int) ≤ (xs.length : Int) := by positivity
    have hrem : (1 : Int) ≤ b.remainder := by omega
    have hsb := b.storeBit_ok x hrem
    have h' : (xs.length : Int) ≤ (Builder.mk b.size (b.bits ++ [x]) b.refs).remainder := by
      simp only [Builder.remainder, List.length_append, List.length_cons,
        List.length_nil] at h ⊢
      push_cast at *
      omega
    simp only [Builder.storeBitsAux, hsb]
    rw [ih _ h']
    simp

/-- Full characterization of `storeBits`. -/
theorem Builder.storeBits_eq (b : Builder) (xs : List Bit) :
    b.storeBits xs =
      if (xs.length : Int) > b.remainder then .error (.bitOverflow, b)
      else .ok ⟨b.size, b.bits ++ xs, b.refs⟩ := by
  unfold Builder.storeBits
  split
  · rfl
  · exact Builder.storeBitsAux_ok xs b (by omega)

/-- `encodeBits` produces exactly `length` bits. -/
theorem encodeBits_length (v : Int) (len : Nat) : (encodeBits v len).length = len := by
  simp [encodeBits]

/-- Full characterization of `storeUint`. -/
theorem Builder.storeUint_eq (b : Builder) (v : Int) (len : Nat) :
    b.storeUint v len =
      if v < 0 ∨ v ≥ 2 ^ len then .error (.rangeError, b)
      else if (len : Int) > b.remainder then .error (.bitOverflow, b)
      else .ok ⟨b.size, b.bits ++ encodeBits v len, b.refs⟩ := by
  unfold Builder.storeUint Builder.storeNumber
  split
  · rfl
  · rw [Builder.storeBits_eq, encodeBits_length]

/-- Full characterization of `storeInt` (for width at least 1). -/
theorem Builder.storeInt_eq (b : Builder) (v : Int) (len : Nat) (hlen : 1 ≤ len) :
    b.storeInt v len =
      if v < -(2 ^ (len - 1)) ∨ v ≥ 2 ^ (len - 1) then .error (.rangeError, b)
      else if (len : Int) > b.remainder then .error (.bitOverflow, b)
      else .ok ⟨b.size, b.bits ++ encodeBits v len, b.refs⟩ := by
  simp only [Builder.storeInt, Builder.storeNumber]
  have hz : (if len = 0 then (0 : Int) else 2 ^ (len - 1)) = 2 ^ (len - 1) :=
    if_neg (by omega)
  rw [hz]
  split
  · rfl
  · rw [Builder.storeBits_eq, encodeBits_length]

/-! ### The encode/decode correspondence -/

/-- Bit `i` (least significant first) of a BigInt: `((v >> i) & 1n) === 1n`. -/
def bitOf (v : Int) (i : Nat) : Bit :=
  (v.fdiv (2 ^ i)) % 2 == 1

/-- `encodeBits` is the reversed list of `bitOf`s. -/
theorem encodeBits_eq_map (v : Int) (len : Nat) :
    encodeBits v len = ((List.range len).map (bitOf v)).reverse := rfl

/-- The value of a bit list read least-significant-bit first. -/
def lsbVal : List Bit → Nat
  | [] => 0
  | b :: r => (if b then 1 else 0) + 2 * lsbVal r

/-- Unfolding the indexed fold of `decodeUint`. -/
theorem foldl_enumFrom_decode (l : List Bit) : ∀ (k : Nat) (acc : Nat),
    (l.enumFrom k).foldl (fun acc p => (if p.2 then 2 ^ p.1 else 0) + acc) acc
      = 2 ^ k * lsbVal l + acc := by
  induction l with
  | nil => intro k acc; simp [lsbVal]
  | cons b r ih =>
    intro k acc
    simp only [List.enumFrom_cons, List.foldl_cons, ih, lsbVal, pow_succ]
    cases b <;> simp <;> ring

/-- `decodeUint` is `lsbVal` of the reversed bits. -/
theorem decodeUint_eq_lsbVal (l : List Bit) : decodeUint l = lsbVal l.reverse := by
  simp [decodeUint, List.enum, foldl_enumFrom_decode]

/-- Shifting a BigInt right by `i + 1` is shifting by one and then by `i`. -/
theorem int_ediv_two_pow_succ (v : Int) (i : Nat) : v / 2 ^ (i + 1) = v / 2 / 2 ^ i := by
  have h1 : (2 : Int) * (v / 2) + v % 2 = v := Int.ediv_add_emod v 2
  have h2 : (2 : Int) ^ i * (v / 2 / 2 ^ i) + (v / 2) % 2 ^ i = v / 2 :=
    Int.ediv_add_emod (v / 2) (2 ^ i)
  have hm0 : (0 : Int) ≤ (v / 2) % 2 ^ i := Int.emod_nonneg _ (by positivity)
  have hm1 : (v / 2) % 2 ^ i < 2 ^ i := Int.emod_lt_of_pos _ (by positivity)
  have hr0 : (0 : Int) ≤ v % 2 := Int.emod_nonneg _ (by omega)
  have hr1 : v % 2 < 2 := Int.emod_lt_of_pos _ (by omega)
  have hv : v = (2 * ((v / 2) % 2 ^ i) + v % 2) + (v / 2 / 2 ^ i) * 2 ^ (i + 1) := by
    linear_combination -h1 - 2 * h2
  conv_lhs => rw [hv]
  rw [Int.add_mul_ediv_right _ _ (by positivity : ((2:Int) ^ (i+1)) ≠ 0)]
  rw [Int.ediv_eq_zero_of_lt (by omega) (by rw [pow_succ]; omega)]
  omega

/-- `bitOf` at `i + 1` is `bitOf` of the halved value at `i`. -/
theorem bitOf_succ (v : Int) (i : Nat) : bitOf v (i + 1) = bitOf (v / 2) i := by
  unfold bitOf
  rw [Int.fdiv_eq_ediv _ (by positivity), Int.fdiv_eq_ediv _ (by positivity),
    int_ediv_two_pow_succ]

/-- `bitOf` at `0` tests the low bit. -/
theorem bitOf_zero (v : Int) : bitOf v 0 = (v % 2 == 1) := by
  unfold bitOf
  rw [pow_zero, Int.fdiv_one]

/-- The value of the `storeNumber` bit list: the low `len` bits of `v` in the
two.s-complement sense. -/
theorem lsbVal_map_bitOf (len : Nat) : ∀ v : Int,
    lsbVal ((List.range len).map (bitOf v)) = (v % ((2 : Int) ^ len)).toNat := by
  induction len with
  | zero =>
    intro v
    rw [pow_zero, Int.emod_one]
    simp [lsbVal]
  | succ len ih =>
    intro v
    rw [List.range_succ_eq_map, List.map_cons, List.map_map]
    have hmap : (bitOf v ∘ Nat.succ) = bitOf (v / 2) := by
      funext i
      simp [Function.comp, Nat.succ_eq_add_one, bitOf_succ]
    rw [hmap]
    show (if bitOf v 0 then 1 else 0) + 2 * lsbVal ((List.range len).map (bitOf (v / 2)))
      = (v % ((2 : Int) ^ (len + 1))).toNat
    rw [ih (v / 2), bitOf_zero]
    have h1 : (2 : Int) * (v / 2) + v % 2 = v := Int.ediv_add_emod v 2
    have h2 : (2 : Int) ^ len * (v / 2 / 2 ^ len) + (v / 2) % 2 ^ len = v / 2 :=
      Int.ediv_add_emod (v / 2) (2 ^ len)
    have hm0 : (0 : Int) ≤ (v / 2) % 2 ^ len := Int.emod_nonneg _ (by positivity)
    have hm1 : (v / 2) % 2 ^ len < 2 ^ len := Int.emod_lt_of_pos _ (by positivity)
    have hr0 : (0 : Int) ≤ v % 2 := Int.emod_nonneg _ (by omega)
    have hr1 : v % 2 < 2 := Int.emod_lt_of_pos _ (by omega)
    have hv : v = (2 * ((v / 2) % 2 ^ len) + v % 2) + (v / 2 / 2 ^ len) * 2 ^ (len + 1) := by
      linear_combination -h1 - 2 * h2
    have hmod : v % 2 ^ (len + 1) = 2 * ((v / 2) % 2 ^ len) + v % 2 := by
      calc v % 2 ^ (len + 1)
          = ((2 * ((v / 2) % 2 ^ len) + v % 2) + (v / 2 / 2 ^ len) * 2 ^ (len + 1))
            % 2 ^ (len + 1) := by conv_lhs => rw [hv]
        _ = (2 * ((v / 2) % 2 ^ len) + v % 2) % 2 ^ (len + 1) := by
            rw [mul_comm (v / 2 / 2 ^ len) ((2:Int) ^ (len + 1))]
            exact Int.add_mul_emod_self_left _ _ _
        _ = 2 * ((v / 2) % 2 ^ len) + v % 2 :=
            Int.emod_eq_of_lt (by omega) (by rw [pow_succ]; omega)
    rw [hmod]
    rcases Int.emod_two_eq_zero_or_one v with h2v | h2v <;> simp [h2v] <;> omega

/-- The headline encode/decode fact: decoding the `storeNumber` bits of `v`
with the `loadUint` formula yields the low `len` bits of `v`. -/
theorem decodeUint_encodeBits (v : Int) (len : Nat) :
    decodeUint (encodeBits v len) = (v % ((2 : Int) ^ len)).toNat := by
  rw [encodeBits_eq_map, decodeUint_eq_lsbVal, List.reverse_reverse, lsbVal_map_bitOf]

/-- Decoding after encoding an in-range non-negative value is the identity. -/
theorem decodeUint_encodeBits_of_nonneg (v : Int) (len : Nat) (h0 : 0 ≤ v)
    (hv : v < 2 ^ len) : (decodeUint (encodeBits v len) : Int) = v := by
  rw [decodeUint_encodeBits, Int.emod_eq_of_lt h0 hv, Int.toNat_of_nonneg h0]

/-! ### Loading from a slice that starts with a known prefix -/

/-- `loadBits` of an exact-length prefix returns that prefix and advances past it. -/
theorem Slice.loadBits_append (pre rest : List Bit) (refs : List Cell)
    (h : pre.length ≠ 0) :
    Slice.loadBits ⟨pre ++ rest, refs⟩ pre.length = .ok (pre, ⟨rest, refs⟩) := by
  unfold Slice.loadBits
  rw [if_neg]
  · simp [List.take_left, List.drop_left]
  · simp only [Slice.bits, List.length_append]
    omega

/-- `preloadBits` of an exact-length prefix returns that prefix. -/
theorem Slice.preloadBits_append (pre rest : List Bit) (refs : List Cell)
    (h : pre.length ≠ 0) :
    Slice.preloadBits ⟨pre ++ rest, refs⟩ pre.length = .ok pre := by
  unfold Slice.preloadBits
  rw [if_neg]
  · simp [List.take_left]
  · simp only [Slice.bits, List.length_append]
    omega

/-- `loadUint` undoes `storeNumber`'s encoding of an in-range value. -/
theorem Slice.loadUint_append (v : Int) (len : Nat) (rest : List Bit) (refs : List Cell)
    (hlen : len ≠ 0) (h0 : 0 ≤ v) (hv : v < 2 ^ len) :
    Slice.loadUint ⟨encodeBits v len ++ rest, refs⟩ len = .ok (v.toNat, ⟨rest, refs⟩) := by
  unfold Slice.loadUint
  have hl := Slice.loadBits_append (encodeBits v len) rest refs
    (by rw [encodeBits_length]; exact hlen)
  rw [encodeBits_length] at hl
  rw [hl]
  show Except.ok (decodeUint (encodeBits v len), (⟨rest, refs⟩ : Slice))
    = Except.ok (v.toNat, (⟨rest, refs⟩ : Slice))
  have h1 : (decodeUint (encodeBits v len) : Int) = v := decodeUint_encodeBits_of_nonneg v len h0 hv
  have h2 : decodeUint (encodeBits v len) = v.toNat := by omega
  rw [h2]

/-- `skip` over an exact-length prefix drops it. -/
theorem Slice.skip_append (pre rest : List Bit) (refs : List Cell) :
    Slice.skip ⟨pre ++ rest, refs⟩ pre.length = .ok ⟨rest, refs⟩ := by
  unfold Slice.skip
  rw [if_neg]
  · simp [List.drop_left]
  · simp only [Slice.bits, List.length_append]
    omega

/-! ### Bytes -/

/-- The bit image of a byte list under `storeBytes`. -/
def bytesBits (value : List Nat) : List Bit :=
  (value.map (fun x => encodeBits ((x % 256 : Nat) : Int) 8)).flatten

/-- `bytesBits` length. -/
theorem bytesBits_length (value : List Nat) : (bytesBits value).length = value.length * 8 := by
  induction value with
  | nil => simp [bytesBits]
  | cons x xs ih =>
    simp only [bytesBits, List.map_cons, List.flatten_cons, List.length_append,
      encodeBits_length, List.length_cons] at ih ⊢
    omega

/-- The success/failure characterization of the `storeBytes` loop. -/
theorem Builder.storeBytesAux_ok (xs : List Nat) : ∀ b : Builder,
    ((xs.length * 8 : Nat) : Int) ≤ b.remainder →
    b.storeBytesAux xs = .ok ⟨b.size, b.bits ++ bytesBits xs, b.refs⟩ := by
  induction xs with
  | nil => intro b _; simp [Builder.storeBytesAux, bytesBits]
  | cons x xs ih =>
    intro b h
    have hc : (((x :: xs).length * 8 : Nat) : Int) = ((xs.length * 8 : Nat) : Int) + 8 := by
      push_cast [List.length_cons]
      ring
    have hxs : (0 : Int) ≤ ((xs.length * 8 : Nat) : Int) := by positivity
    have hrem : (8 : Int) ≤ b.remainder := by omega
    have hsu := b.storeUint_eq ((x % 256 : Nat) : Int) 8
    rw [if_neg (by push_cast; omega), if_neg (by omega)] at hsu
    simp only [Builder.storeBytesAux, hsu]
    have h' : ((xs.length * 8 : Nat) : Int)
        ≤ (Builder.mk b.size (b.bits ++ encodeBits ((x % 256 : Nat) : Int) 8) b.refs).remainder := by
      simp only [Builder.remainder] at h ⊢
      simp only [List.length_append, encodeBits_length]
      push_cast at h ⊢
      omega
    rw [ih _ h']
    simp only [bytesBits, List.map_cons, List.flatten_cons, List.append_assoc]

/-- Full characterization of `storeBytes`. -/
theorem Builder.storeBytes_eq (b : Builder) (value : List Nat) :
    b.storeBytes value =
      if ((value.length * 8 : Nat) : Int) > b.remainder then .error (.bitOverflow, b)
      else .ok ⟨b.size, b.bits ++ bytesBits value, b.refs⟩ := by
  unfold Builder.storeBytes
  split
  · rfl
  · exact Builder.storeBytesAux_ok value b (by omega)

/-- `bitsToBytes` on a leading 8-bit block. -/
theorem bitsToBytes_block (l : List Bit) (r : List Bit) (h : l.length = 8) :
    bitsToBytes (l ++ r) = decodeUint l :: bitsToBytes r := by
  match l, h with
  | b :: l7, h =>
    have h7 : l7.length = 7 := by simpa using h
    rw [List.cons_append, bitsToBytes]
    have ht : List.take 8 (b :: (l7 ++ r)) = b :: l7 := by
      rw [← List.cons_append, ← h]
      exact List.take_left _ _
    have hd : List.drop 7 (l7 ++ r) = r := by
      rw [← h7]
      exact List.drop_left _ _
    rw [ht, hd]

/-- Unpacking the packed bits of a byte list recovers the bytes (all < 256). -/
theorem bitsToBytes_bytesBits (value : List Nat) (h : ∀ x ∈ value, x < 256) :
    bitsToBytes (bytesBits value) = value := by
  induction value with
  | nil => rw [bytesBits]; simp [bitsToBytes]
  | cons x xs ih =>
    have hx : x < 256 := h x (by simp)
    simp only [bytesBits, List.map_cons, List.flatten_cons]
    rw [bitsToBytes_block _ _ (encodeBits_length _ _)]
    have hdec : (decodeUint (encodeBits ((x % 256 : Nat) : Int) 8) : Int)
        = ((x % 256 : Nat) : Int) := by
      apply decodeUint_encodeBits_of_nonneg
      · positivity
      · have : x % 256 < 256 := by omega
        push_cast
        omega
    have hdec' : decodeUint (encodeBits ((x % 256 : Nat) : Int) 8) = x := by
      have : x % 256 = x := Nat.mod_eq_of_lt hx
      omega
    rw [hdec']
    have hfold : (List.map (fun y => encodeBits ((y % 256 : Nat) : Int) 8) xs).flatten
        = bytesBits xs := rfl
    rw [hfold, ih (fun y hy => h y (by simp [hy]))]

/-! ### Refs, slices, addresses, coins -/

/-- The success characterization of the `storeSlice` refs loop. -/
theorem Builder.storeRefsAux_ok (xs : List Cell) : ∀ b : Builder,
    (xs.length : Int) ≤ 4 - (b.refs.length : Int) →
    b.storeRefsAux xs = .ok ⟨b.size, b.bits, b.refs ++ xs⟩ := by
  induction xs with
  | nil => intro b _; simp [Builder.storeRefsAux]
  | cons x xs ih =>
    intro b h
    have hc : (((x :: xs).length : Nat) : Int) = (xs.length : Int) + 1 := by
      push_cast [List.length_cons]
      ring
    have hxs : (0 : Int) ≤ (xs.length : Int) := by positivity
    have hsr : b.storeRef x = .ok ⟨b.size, b.bits, b.refs ++ [x]⟩ := by
      unfold Builder.storeRef
      rw [if_neg (by omega)]
    simp only [Builder.storeRefsAux, hsr]
    have h' : (xs.length : Int)
        ≤ 4 - (((Builder.mk b.size b.bits (b.refs ++ [x])).refs.length : Nat) : Int) := by
      simp only [List.length_append, List.length_cons, List.length_nil]
      push_cast at h ⊢
      omega
    rw [ih _ h']
    simp

/-- Full characterization of `storeSlice`. -/
theorem Builder.storeSlice_eq (b : Builder) (s : Slice) :
    b.storeSlice s =
      if (s.bits.length : Int) > b.remainder then .error (.bitOverflow, b)
      else if (s.refs.length : Int) > 4 - (b.refs.length : Int) then .error (.refOverflow, b)
      else .ok ⟨b.size, b.bits ++ s.bits, b.refs ++ s.refs⟩ := by
  simp only [Builder.storeSlice]
  split
  · rfl
  · split
    · rfl
    · rename_i hbits hrefs
      have h1 : b.storeBits s.bits = .ok ⟨b.size, b.bits ++ s.bits, b.refs⟩ := by
        rw [Builder.storeBits_eq, if_neg hbits]
      simp only [h1]
      exact Builder.storeRefsAux_ok s.refs _ (by simpa using by omega)

/-- The bit image of a non-null address under `storeAddress`. -/
def addressBits (a : Address) : List Bit :=
  [true, false] ++ encodeBits 0 1 ++ encodeBits a.workchain 8 ++ bytesBits a.hash

/-- Full characterization of `storeAddress` on a well-formed address (8-bit
signed workchain, 32 hash bytes): fails with `BitOverflow` when fewer than
267 bits remain, else appends the 267-bit layout. -/
theorem Builder.storeAddress_some_eq (b : Builder) (a : Address)
    (hwl : -128 ≤ a.workchain) (hwh : a.workchain < 128) (hh : a.hash.length = 32) :
    b.storeAddress (some a) =
      if (267 : Int) > b.remainder then .error (.bitOverflow, b)
      else .ok ⟨b.size, b.bits ++ addressBits a, b.refs⟩ := by
  simp only [Builder.storeAddress]
  split
  · rfl
  · rename_i hrem
    have hrem2 : (b.size : Int) - (b.bits.length : Int) ≥ 267 := by
      simp only [Builder.remainder] at hrem
      omega
    have h1 : b.storeBits [true, false] = .ok ⟨b.size, b.bits ++ [true, false], b.refs⟩ := by
      rw [Builder.storeBits_eq, if_neg (by
        simp only [Builder.remainder, List.length_cons, List.length_nil]
        push_cast
        omega)]
    simp only [h1]
    have h2 : (Builder.mk b.size (b.bits ++ [true, false]) b.refs).storeUint 0 1
        = .ok ⟨b.size, (b.bits ++ [true, false]) ++ encodeBits 0 1, b.refs⟩ := by
      rw [Builder.storeUint_eq, if_neg (by norm_num), if_neg (by
        simp only [Builder.remainder, List.length_append, List.length_cons, List.length_nil]
        push_cast
        omega)]
    simp only [h2]
    have h3 : (Builder.mk b.size ((b.bits ++ [true, false]) ++ encodeBits 0 1) b.refs).storeInt
          a.workchain 8
        = .ok ⟨b.size, ((b.bits ++ [true, false]) ++ encodeBits 0 1) ++ encodeBits a.workchain 8,
            b.refs⟩ := by
      rw [Builder.storeInt_eq _ _ 8 (by omega), if_neg (by norm_num; omega), if_neg (by
        simp only [Builder.remainder, List.length_append, List.length_cons, List.length_nil,
          encodeBits_length]
        push_cast
        omega)]
    simp only [h3]
    rw [Builder.storeBytes_eq, if_neg (by
      simp only [Builder.remainder, List.length_append, List.length_cons, List.length_nil,
        encodeBits_length, hh]
      push_cast
      omega)]
    simp only [addressBits, List.append_assoc, List.cons_append, List.nil_append]

/-! ### Coins -/

/-- `hexLen` is at least one digit. -/
theorem hexLen_pos (n : Nat) : 1 ≤ hexLen n := by
  rw [hexLen]
  split <;> omega

/-- A value is below `16^(its hex-digit count)`. -/
theorem hexLen_lt (n : Nat) : n < 16 ^ hexLen n := by
  induction n using Nat.strong_induction_on with
  | _ n ih =>
    rw [hexLen]
    split
    · simpa using by omega
    · rename_i h16
      have hdiv := ih (n / 16) (Nat.div_lt_self (by omega) (by omega))
      have hn : n < 16 * (n / 16) + 16 := by omega
      have : n < 16 * 16 ^ hexLen (n / 16) := by nlinarith [hdiv]
      simpa [pow_succ, Nat.mul_comm] using this

/-- The hex-digit count is minimal: a value below `16^k` has at most `k` digits. -/
theorem hexLen_le (n k : Nat) (hk : 1 ≤ k) (h : n < 16 ^ k) : hexLen n ≤ k := by
  induction k generalizing n with
  | zero => omega
  | succ k ih =>
    rw [hexLen]
    split
    · omega
    · rename_i h16
      have hk1 : 1 ≤ k := by
        by_contra hk0
        have : k = 0 := by omega
        rw [this] at h
        simp at h
        omega
      have hdiv : n / 16 < 16 ^ k := by
        apply Nat.div_lt_of_lt_mul
        calc n < 16 ^ (k + 1) := h
          _ = 16 * 16 ^ k := by ring
      have := ih (n / 16) hk1 hdiv
      omega

/-- The byte length computed by `storeCoins`. -/
def coinsByteLen (c : Int) : Nat :=
  (hexLen c.toNat + 1) / 2

/-- A positive coin value fits in `8 * coinsByteLen` bits. -/
theorem coins_lt_pow (c : Int) (hc : 0 < c) : c < 2 ^ (coinsByteLen c * 8) := by
  have h1 : c.toNat < 16 ^ hexLen c.toNat := hexLen_lt _
  have h2 : (16 : Nat) ^ hexLen c.toNat ≤ 2 ^ (coinsByteLen c * 8) := by
    have : (16 : Nat) = 2 ^ 4 := by norm_num
    rw [this, ← pow_mul]
    apply Nat.pow_le_pow_right (by omega)
    have := hexLen_pos c.toNat
    unfold coinsByteLen
    omega
  have h3 : c.toNat < 2 ^ (coinsByteLen c * 8) := by omega
  have h4 : ((2 : Nat) ^ (coinsByteLen c * 8) : Int) = (2 : Int) ^ (coinsByteLen c * 8) := by
    push_cast
    ring
  omega

/-- Full characterization of `storeCoins` on a positive value of at most
15 bytes: fails with `BitOverflow` when the nibble plus magnitude do not fit,
else appends the 4-bit byte length and the big-endian magnitude. -/
theorem Builder.storeCoins_pos_eq (b : Builder) (c : Int) (hc : 0 < c)
    (hlen : coinsByteLen c ≤ 15) :
    b.storeCoins c =
      if ((4 + coinsByteLen c * 8 : Nat) : Int) > b.remainder then .error (.bitOverflow, b)
      else .ok ⟨b.size, (b.bits ++ encodeBits ((coinsByteLen c : Nat) : Int) 4)
            ++ encodeBits c (coinsByteLen c * 8), b.refs⟩ := by
  simp only [Builder.storeCoins, coinsByteLen]
  rw [if_neg (by omega), if_neg (by omega)]
  have hfold : (hexLen c.toNat + 1) / 2 = coinsByteLen c := rfl
  rw [hfold]
  split
  · rfl
  · rename_i hrem
    have hrem2 : ((4 + coinsByteLen c * 8 : Nat) : Int) ≤ b.remainder := by omega
    have hrc : (0 : Int) ≤ (coinsByteLen c : Int) := by positivity
    have h1 : b.storeUint ((coinsByteLen c : Nat) : Int) 4
        = .ok ⟨b.size, b.bits ++ encodeBits ((coinsByteLen c : Nat) : Int) 4, b.refs⟩ := by
      rw [Builder.storeUint_eq, if_neg (by
        push_cast
        norm_num
        omega), if_neg (by omega)]
    simp only [h1]
    rw [Builder.storeUint_eq, if_neg (by
        have := coins_lt_pow c hc
        omega), if_neg (by
      simp only [Builder.remainder, List.length_append, encodeBits_length]
      simp only [Builder.remainder] at hrem2
      push_cast at hrem2 ⊢
      omega)]

/-! ### Padding (augmentBits / rollbackBits) -/

/-- The `overage` list of `augmentBits`: a flag `1` then zeros. -/
theorem range_map_beq_zero (a : Nat) (ha : 1 ≤ a) :
    (List.range a).map (fun i => i == 0) = true :: List.replicate (a - 1) false := by
  obtain ⟨a', rfl⟩ : ∃ a', a = a' + 1 := ⟨a - 1, by omega⟩
  rw [List.range_succ_eq_map, List.map_cons, List.map_map]
  simp only [Nat.add_sub_cancel]
  congr 1
  have : ((fun i => i == 0) ∘ Nat.succ) = fun _ : Nat => false := by
    funext i
    simp [Function.comp]
  rw [this, List.map_const', List.length_range]

/-- Characterization of `augmentBits` for the two legal dividers: input whose
length is already a multiple of the divider is returned unchanged (the
overage would be a full block and is skipped); otherwise a `1` flag and
zeros pad to the next multiple. -/
theorem augmentBits_eq (bits : List Bit) (d : Nat) (hd : d = 4 ∨ d = 8) :
    Builder.augmentBits bits d =
      if bits.length % d = 0 then bits
      else bits ++ (true :: List.replicate (d - bits.length % d - 1) false) := by
  have hd0 : 0 < d := by rcases hd with h | h <;> omega
  have hmod : bits.length % d < d := Nat.mod_lt _ hd0
  unfold Builder.augmentBits
  simp only [List.length_map, List.length_range]
  split
  · rename_i h
    -- padding was appended: amount is neither 0 nor d, so length % d ≠ 0
    have hne : bits.length % d ≠ 0 := by
      by_contra h0
      exact h.2 (by omega)
    rw [if_neg hne, range_map_beq_zero _ (by omega)]
  · rename_i h
    -- no padding: amount = d - length % d is never 0, so it must equal d
    have h0 : bits.length % d = 0 := by
      by_contra hne
      exact h ⟨by omega, by omega⟩
    rw [if_pos h0]

/-- `indexOfTrue` on zeros followed by a `1`. -/
theorem indexOfTrue_replicate (k : Nat) (rest : List Bit) :
    indexOfTrue (List.replicate k false ++ true :: rest) = some k := by
  induction k with
  | zero => simp [indexOfTrue]
  | succ k ih =>
    rw [List.replicate_succ, List.cons_append, indexOfTrue]
    simp [ih]

/-- `rollbackBits` undoes `augmentBits` whenever padding was appended, i.e.
whenever the input length is not a multiple of the divider. -/
theorem rollbackBits_augmentBits (bits : List Bit) (d : Nat) (hd : d = 4 ∨ d = 8)
    (h : bits.length % d ≠ 0) :
    Builder.rollbackBits (Builder.augmentBits bits d) = .ok bits := by
  have hd0 : 0 < d := by rcases hd with h' | h' <;> omega
  have hd8 : d ≤ 8 := by rcases hd with h' | h' <;> omega
  have hmod0 : 0 < bits.length % d := Nat.pos_of_ne_zero h
  have hmod : bits.length % d < d := Nat.mod_lt _ hd0
  set a : Nat := d - bits.length % d with ha
  have ha1 : 1 ≤ a := by omega
  have ha7 : a ≤ 7 := by omega
  rw [augmentBits_eq bits d hd, if_neg h]
  set pad : List Bit := true :: List.replicate (a - 1) false with hpad
  have hpadlen : pad.length = a := by
    rw [hpad]
    simp only [List.length_cons, List.length_replicate]
    omega
  unfold Builder.rollbackBits
  have hlen : (bits ++ pad).length = bits.length + a := by
    rw [List.length_append, hpadlen]
  have hk : (bits ++ pad).length - 7 ≤ bits.length := by omega
  have hdrop : (bits ++ pad).drop ((bits ++ pad).length - 7)
      = bits.drop ((bits ++ pad).length - 7) ++ pad :=
    List.drop_append_of_le_length hk
  have hrev : ((bits ++ pad).drop ((bits ++ pad).length - 7)).reverse
      = List.replicate (a - 1) false
        ++ true :: (bits.drop ((bits ++ pad).length - 7)).reverse := by
    rw [hdrop, List.reverse_append, hpad, List.reverse_cons, List.reverse_replicate,
      List.append_assoc, List.singleton_append]
  rw [hrev, indexOfTrue_replicate]
  have htake : (bits ++ pad).take ((bits ++ pad).length - (a - 1 + 1)) = bits := by
    have : (bits ++ pad).length - (a - 1 + 1) = bits.length := by omega
    rw [this, List.take_left]
  show Except.ok ((bits ++ pad).take ((bits ++ pad).length - (a - 1 + 1))) = Except.ok bits
  rw [htake]

/-! ### Claims C1 and C2: the padding transform -/

deriving instance DecidableEq for Except

/-- Claim C1, counterexample: for a bit sequence whose length is already a
multiple of the divisor (here `[1,1,1,1]` with divisor 4), `augmentBits`
appends nothing and `rollbackBits` then strips payload bits, so
`rollbackBits (augmentBits bits 4)` is not the original sequence. -/
theorem c1_counterexample :
    Builder.rollbackBits (Builder.augmentBits [true, true, true, true] 4)
      ≠ .ok [true, true, true, true] := by decide

/-- Claim C1 (amended): for every bit sequence whose length is NOT a multiple
of the divisor and divisor in {4, 8}, `rollbackBits (augmentBits bits d)`
returns the original bits; for aligned lengths `augmentBits` appends no
padding, so the round trip fails there. -/
theorem c1_rollback_augment (bits : List Bit) (d : Nat) (hd : d = 4 ∨ d = 8)
    (h : bits.length % d ≠ 0) :
    Builder.rollbackBits (Builder.augmentBits bits d) = .ok bits :=
  rollbackBits_augmentBits bits d hd h

/-- Claim C1, witness: the round trip at a concrete unaligned input. -/
theorem c1_witness :
    ((8 : Nat) = 4 ∨ (8 : Nat) = 8) ∧ ([true, false] : List Bit).length % 8 ≠ 0 ∧
    Builder.rollbackBits (Builder.augmentBits [true, false] 8) = .ok [true, false] :=
  ⟨Or.inr rfl, by decide, c1_rollback_augment [true, false] 8 (Or.inr rfl) (by decide)⟩

/-- Claim C2, counterexample: for `bits.length = 8` and divisor 8 the claim
demands a 16-bit result (a full extra padding block); the code returns the
8 input bits unchanged. -/
theorem c2_counterexample :
    (Builder.augmentBits (List.replicate 8 false) 8).length = 8 := by decide

/-- Claim C2 (amended): for divisor in {4, 8}, when `bits.length` is not a
multiple of the divisor `augmentBits` appends a single `1` then zeros up to
the next multiple of the divisor; when `bits.length` is already a multiple,
it appends nothing and returns `bits` unchanged (padding CAN be zero-length).
In both cases the result length is a multiple of the divisor. -/
theorem c2_augment_eq (bits : List Bit) (d : Nat) (hd : d = 4 ∨ d = 8) :
    (Builder.augmentBits bits d =
      if bits.length % d = 0 then bits
      else bits ++ (true :: List.replicate (d - bits.length % d - 1) false))
    ∧ (Builder.augmentBits bits d).length % d = 0 := by
  have hd0 : 0 < d := by rcases hd with h | h <;> omega
  have heq := augmentBits_eq bits d hd
  refine ⟨heq, ?_⟩
  rw [heq]
  split
  · rename_i h0
    exact h0
  · rename_i h0
    have hmod : bits.length % d < d := Nat.mod_lt _ hd0
    simp only [List.length_append, List.length_cons, List.length_replicate]
    rcases hd with rfl | rfl <;> omega

/-- Claim C2, witness: the characterization at a concrete unaligned input. -/
theorem c2_witness :
    (Builder.augmentBits [true, false] 8 =
      if ([true, false] : List Bit).length % 8 = 0 then [true, false]
      else [true, false] ++ (true :: List.replicate (8 - ([true, false] : List Bit).length % 8 - 1) false))
    ∧ (Builder.augmentBits [true, false] 8).length % 8 = 0 :=
  c2_augment_eq [true, false] 8 (Or.inr rfl)

/-! ### Claim C8: integer range errors -/

/-- Claim C8: `storeUint(value, n)` fails with `RangeError` exactly when
`value < 0` or `value ≥ 2^n` (so `storeUint(2^n, n)` fails), and
`storeInt(value, n)` fails with `RangeError` exactly when
`value < -2^(n-1)` or `value ≥ 2^(n-1)` (so `storeInt(2^(n-1), n)` fails);
the range check precedes any capacity check and any mutation, every failure
carries the builder unchanged, and an in-range value never produces
`RangeError` (only possibly `BitOverflow`, also with the builder unchanged). -/
theorem c8_range_errors (b : Builder) (v : Int) (n : Nat) (hn : 1 ≤ n) :
    (b.storeUint v n =
      if v < 0 ∨ v ≥ 2 ^ n then .error (.rangeError, b)
      else if (n : Int) > b.remainder then .error (.bitOverflow, b)
      else .ok ⟨b.size, b.bits ++ encodeBits v n, b.refs⟩)
    ∧ (b.storeInt v n =
      if v < -(2 ^ (n - 1)) ∨ v ≥ 2 ^ (n - 1) then .error (.rangeError, b)
      else if (n : Int) > b.remainder then .error (.bitOverflow, b)
      else .ok ⟨b.size, b.bits ++ encodeBits v n, b.refs⟩) :=
  ⟨b.storeUint_eq v n, b.storeInt_eq v n hn⟩

/-- Claim C8, witness: `storeUint(2^8, 8)` and `storeInt(2^7, 8)` on a fresh
builder both take the `RangeError` branch with the builder unchanged. -/
theorem c8_witness :
    ((Builder.new 1023).storeUint 256 8 =
      if (256 : Int) < 0 ∨ (256 : Int) ≥ 2 ^ 8 then .error (.rangeError, Builder.new 1023)
      else if (8 : Int) > (Builder.new 1023).remainder
        then .error (.bitOverflow, Builder.new 1023)
      else .ok ⟨(Builder.new 1023).size,
        (Builder.new 1023).bits ++ encodeBits 256 8, (Builder.new 1023).refs⟩)
    ∧ ((Builder.new 1023).storeInt 256 8 =
      if (256 : Int) < -(2 ^ (8 - 1)) ∨ (256 : Int) ≥ 2 ^ (8 - 1)
        then .error (.rangeError, Builder.new 1023)
      else if (8 : Int) > (Builder.new 1023).remainder
        then .error (.bitOverflow, Builder.new 1023)
      else .ok ⟨(Builder.new 1023).size,
        (Builder.new 1023).bits ++ encodeBits 256 8, (Builder.new 1023).refs⟩) :=
  c8_range_errors (Builder.new 1023) 256 8 (by omega)

/-! ### Claim C5: the integer round trip and the 32-bit `loadInt` slip -/

/-- Claim C5 fails on the code: `loadInt(32)` over the cell produced by
`storeInt(0, 32)` evaluates to `4294967296`, not `0`, because the JS
`1 << (size - 1)` is 32-bit arithmetic and `1 << 31` is the negative int32
`-2147483648`. -/
theorem c5_loadInt32_eval :
    (((Builder.new 1023).storeInt 0 32).mapError Prod.fst).bind
        (fun b => b.cell.parse.loadInt 32)
      = .ok ((4294967296 : Int), ⟨[], []⟩) := by
  rfl

/-! ### Claim C10: MessageX inline choice ignores refs -/

/-- Claim C10: with an `info` cell already carrying 4 refs and an `init` cell
with empty bits but one ref, the inline test (which compares bit lengths
only) still chooses the inline branch, and the inner `storeSlice` then fails
with `RefOverflow` — MessageX does not fall back to the by-reference branch.
The failing builder state carries the two flag bits `1, 0` already emitted. -/
theorem c10_inline_refOverflow :
    MsgTemplate.MessageX
        (Cell.mk [] [Cell.mk [] [], Cell.mk [] [], Cell.mk [] [], Cell.mk [] []])
        (some (Cell.mk [] [Cell.mk [] []])) none
      = .error (.refOverflow,
          ⟨1023, [true, false],
            [Cell.mk [] [], Cell.mk [] [], Cell.mk [] [], Cell.mk [] []]⟩) := by
  rfl

/-! ### Claim C7: coins -/

/-- A value at or above `16^k` has more than `k` hex digits. -/
theorem hexLen_ge (k : Nat) : ∀ n : Nat, 16 ^ k ≤ n → k + 1 ≤ hexLen n := by
  induction k with
  | zero => intro n _; exact hexLen_pos n
  | succ k ih =>
    intro n h
    have h16 : 16 ≤ n := by
      have : 16 ≤ 16 ^ (k + 1) := by
        calc 16 = 16 ^ 1 := by norm_num
          _ ≤ 16 ^ (k + 1) := Nat.pow_le_pow_right (by omega) (by omega)
      omega
    rw [hexLen, if_neg (by omega)]
    have hdiv : 16 ^ k ≤ n / 16 := by
      rw [Nat.le_div_iff_mul_le (by omega)]
      calc 16 ^ k * 16 = 16 ^ (k + 1) := by ring
        _ ≤ n := h
    have := ih (n / 16) hdiv
    omega

/-- Claim C7, counterexample: storing a Coins value requiring 32 bytes of
magnitude (`2^255`) does not round-trip — it fails with `RangeError`,
because the computed byte length 32 does not fit the 4-bit length nibble
(`storeUint(32, 4)`). -/
theorem c7_counterexample :
    (Builder.new 1023).storeCoins (((2 ^ 255 : Nat) : Int))
      = .error (.rangeError, Builder.new 1023) := by
  have ht : (((2 ^ 255 : Nat) : Int)).toNat = 2 ^ 255 := Int.toNat_natCast _
  have h64 : hexLen ((((2 ^ 255 : Nat) : Int))).toNat = 64 := by
    rw [ht]
    have hle : hexLen (2 ^ 255 : Nat) ≤ 64 := hexLen_le _ 64 (by omega) (by norm_num)
    have hge : 63 + 1 ≤ hexLen (2 ^ 255 : Nat) := hexLen_ge 63 _ (by norm_num)
    omega
  simp only [Builder.storeCoins]
  rw [if_neg (by exact not_lt.mpr (Int.natCast_nonneg _)), if_neg (by norm_num), h64]
  rw [if_neg (by norm_num [Builder.remainder, Builder.new])]
  rw [Builder.storeUint_eq, if_pos (by norm_num)]

/-- Claim C7 (amended): for every non-negative Coins value whose magnitude
fits in at most 15 bytes — in particular any value below `16^30`, which
covers 0, 1, 255, 256 — `loadCoins` over the cell produced by `storeCoins`
on a fresh default builder returns the value exactly (zero encoded as a lone
4-bit `0` nibble), and `storeCoins` of any negative value fails with
`NegativeAmount` leaving the builder unchanged.  (Values needing 16 or more
bytes, e.g. 32 bytes, instead fail with `RangeError`: the 4-bit length
nibble cannot hold their byte count.) -/
theorem c7_coins_roundtrip (b : Builder) (c : Int) (hsmall : c < ((16 ^ 30 : Nat) : Int)) :
    (c < 0 → b.storeCoins c = .error (.negativeAmount, b))
    ∧ (0 ≤ c → (((Builder.new 1023).storeCoins c).mapError Prod.fst).bind
          (fun b' => b'.cell.parse.loadCoins) = .ok (c, ⟨[], []⟩)) := by
  constructor
  · intro hneg
    simp only [Builder.storeCoins]
    rw [if_pos hneg]
  · intro h0
    rcases eq_or_lt_of_le h0 with hz | hpos
    · -- c = 0: a lone 4-bit zero nibble
      rw [← hz]
      simp only [Builder.storeCoins]
      rw [if_neg (by omega)]
      rw [if_pos (by trivial)]
      rw [Builder.storeUint_eq, if_neg (by norm_num),
        if_neg (by norm_num [Builder.remainder, Builder.new])]
      show (Builder.mk 1023 ([] ++ encodeBits 0 4) []).cell.parse.loadCoins
        = .ok ((0 : Int), ⟨[], []⟩)
      rw [List.nil_append]
      have hlen4 : (encodeBits 0 4).length = 4 := encodeBits_length 0 4
      have hs : (Builder.mk 1023 (encodeBits 0 4) []).cell.parse
          = ⟨encodeBits 0 4, []⟩ := rfl
      rw [hs]
      have hpb : Slice.preloadBits ⟨encodeBits 0 4, []⟩ 4 = .ok (encodeBits 0 4) := by
        unfold Slice.preloadBits
        rw [if_neg (by simp only [hlen4]; omega)]
        show Except.ok ((encodeBits 0 4).take 4) = _
        rw [List.take_of_length_le (by omega)]
      have hdec : decodeUint (encodeBits 0 4) = 0 := by
        have := decodeUint_encodeBits_of_nonneg 0 4 (by omega) (by norm_num)
        omega
      simp only [Slice.loadCoins, Slice.preloadUint, hpb, hdec]
      rw [if_pos (by trivial)]
      unfold Slice.skip
      rw [if_neg (by simp only [hlen4]; omega)]
      show Except.ok ((0 : Int), (⟨(encodeBits 0 4).drop 4, []⟩ : Slice)) = _
      rw [List.drop_eq_nil_of_le (by omega)]
    · -- c > 0
      set L := coinsByteLen c with hL
      have hhex : hexLen c.toNat ≤ 30 := by
        apply hexLen_le _ 30 (by omega)
        omega
      have hL15 : L ≤ 15 := by
        rw [hL]
        unfold coinsByteLen
        omega
      have hL1 : 1 ≤ L := by
        rw [hL]
        unfold coinsByteLen
        have := hexLen_pos c.toNat
        omega
      have hcfit : c < 2 ^ (L * 8) := coins_lt_pow c hpos
      have hst := (Builder.new 1023).storeCoins_pos_eq c hpos hL15
      rw [if_neg (by
        simp only [Builder.remainder, Builder.new]
        push_cast
        simp only [List.length_nil]
        omega)] at hst
      rw [hst]
      show (Builder.mk 1023 (([] ++ encodeBits ((L : Nat) : Int) 4) ++ encodeBits c (L * 8))
          []).cell.parse.loadCoins = .ok (c, ⟨[], []⟩)
      rw [List.nil_append]
      have hs : (Builder.mk 1023 (encodeBits ((L : Nat) : Int) 4 ++ encodeBits c (L * 8))
          []).cell.parse = ⟨encodeBits ((L : Nat) : Int) 4 ++ encodeBits c (L * 8), []⟩ := rfl
      rw [hs]
      set s : Slice := ⟨encodeBits ((L : Nat) : Int) 4 ++ encodeBits c (L * 8), []⟩ with hsdef
      have hslen : s.bits.length = 4 + L * 8 := by
        rw [hsdef]
        simp only [Slice.bits, List.length_append, encodeBits_length]
      have hpb4 : s.preloadBits 4 = .ok (encodeBits ((L : Nat) : Int) 4) := by
        unfold Slice.preloadBits
        rw [if_neg (by rw [hslen]; omega)]
        rw [hsdef]
        show Except.ok (List.take 4 _) = _
        rw [List.take_left' (encodeBits_length _ _)]
      have hdecL : decodeUint (encodeBits ((L : Nat) : Int) 4) = L := by
        have h1 : (decodeUint (encodeBits ((L : Nat) : Int) 4) : Int) = ((L : Nat) : Int) := by
          apply decodeUint_encodeBits_of_nonneg
          · positivity
          · have h16 : L < 16 := by omega
            push_cast
            omega
        omega
      have hLne : ¬ (L = 0) := by omega
      simp only [Slice.loadCoins, Slice.preloadUint, hpb4, hdecL]
      rw [if_neg hLne]
      have hpball : s.preloadBits (4 + L * 8) = .ok s.bits := by
        unfold Slice.preloadBits
        rw [if_neg (by rw [hslen]; omega)]
        rw [← hslen, List.take_length]
      simp only [hpball]
      have hdrop : s.bits.drop 4 = encodeBits c (L * 8) := by
        rw [hsdef]
        show List.drop 4 _ = _
        rw [List.drop_left' (encodeBits_length _ _)]
      have hdecc : (decodeUint (s.bits.drop 4) : Int) = c := by
        rw [hdrop]
        exact decodeUint_encodeBits_of_nonneg c (L * 8) (by omega) hcfit
      have hskip : s.skip (4 + L * 8) = .ok ⟨[], []⟩ := by
        unfold Slice.skip
        rw [if_neg (by rw [hslen]; omega)]
        have : s.bits.drop (4 + L * 8) = [] := by
          rw [← hslen, List.drop_length]
        rw [this]
      simp only [hskip, hdecc]

/-- Claim C7, witness: the round trip at the concrete value 256. -/
theorem c7_witness :
    (((Builder.new 1023).storeCoins 256).mapError Prod.fst).bind
        (fun b' => b'.cell.parse.loadCoins) = .ok ((256 : Int), ⟨[], []⟩) :=
  (c7_coins_roundtrip (Builder.new 1023) 256 (by norm_num)).2 (by norm_num)

/-! ### Claim C6: addresses -/

/-- `bitsToInt8` undoes the two.s-complement 8-bit encoding of `storeInt`. -/
theorem bitsToInt8_encodeBits (w : Int) (hl : -128 ≤ w) (hh : w < 128) :
    bitsToInt8 (encodeBits w 8) = w := by
  unfold bitsToInt8
  rw [decodeUint_encodeBits]
  have h256 : ((2 : Int) ^ 8) = 256 := by norm_num
  rw [h256]
  have hdm : (256 : Int) * (w / 256) + w % 256 = w := Int.ediv_add_emod w 256
  have hm0 : (0 : Int) ≤ w % 256 := Int.emod_nonneg _ (by omega)
  have hm1 : w % 256 < 256 := Int.emod_lt_of_pos _ (by omega)
  show (if 128 ≤ (w % 256).toNat then ((w % 256).toNat : Int) - 256
    else ((w % 256).toNat : Int)) = w
  split <;> omega

/-- Claim C6: `loadAddress` over the cell produced by `storeAddress(a)` on a
fresh default builder returns the no-address marker when `a` is null and
otherwise recovers `a`'s workchain and 256-bit hash exactly, for every
well-formed address (8-bit signed workchain, 32 hash bytes each below 256) —
including the boundary address with workchain `-1` and an all-ones hash. -/
theorem c6_address_roundtrip (a : Option Address)
    (h : ∀ x ∈ a, -128 ≤ x.workchain ∧ x.workchain < 128 ∧ x.hash.length = 32
          ∧ ∀ y ∈ x.hash, y < 256) :
    (((Builder.new 1023).storeAddress a).mapError Prod.fst).bind
        (fun b => b.cell.parse.loadAddress) = .ok (a, ⟨[], []⟩) := by
  match a with
  | none =>
    show ((((Builder.new 1023).storeBits [false, false]).mapError Prod.fst).bind
        (fun b => b.cell.parse.loadAddress)) = .ok (none, ⟨[], []⟩)
    rw [Builder.storeBits_eq, if_neg (by norm_num [Builder.remainder, Builder.new])]
    show (Builder.mk 1023 ([] ++ [false, false]) []).cell.parse.loadAddress
      = .ok (none, ⟨[], []⟩)
    rw [List.nil_append]
    have hs : (Builder.mk 1023 [false, false] []).cell.parse
        = ⟨[false, false], []⟩ := rfl
    rw [hs]
    unfold Slice.loadAddress
    have hpb : Slice.preloadBits ⟨[false, false], []⟩ 2 = .ok [false, false] := by
      unfold Slice.preloadBits
      rw [if_neg (by simp)]
      rfl
    rw [hpb]
    show (if ([false, false] : List Bit) = [false, false] then _ else _) = _
    rw [if_pos rfl]
    unfold Slice.skip
    rw [if_neg (by simp)]
    rfl
  | some x =>
    obtain ⟨hwl, hwh, hhlen, hhbytes⟩ := h x (by simp)
    rw [Builder.storeAddress_some_eq _ x hwl hwh hhlen,
      if_neg (by norm_num [Builder.remainder, Builder.new])]
    show (Builder.mk 1023 ([] ++ addressBits x) []).cell.parse.loadAddress
      = .ok (some x, ⟨[], []⟩)
    rw [List.nil_append]
    have hs : (Builder.mk 1023 (addressBits x) []).cell.parse
        = ⟨addressBits x, []⟩ := rfl
    rw [hs]
    have hbblen : (bytesBits x.hash).length = 256 := by
      rw [bytesBits_length, hhlen]
    have halen : (addressBits x).length = 267 := by
      simp only [addressBits, List.length_append, List.length_cons, List.length_nil,
        encodeBits_length, hbblen]
    have hsplit3 : addressBits x
        = ([true, false] ++ encodeBits 0 1)
          ++ (encodeBits x.workchain 8 ++ bytesBits x.hash) := by
      simp only [addressBits, List.append_assoc]
    have h3len : (([true, false] ++ encodeBits 0 1) : List Bit).length = 3 := by
      simp only [List.length_append, List.length_cons, List.length_nil, encodeBits_length]
    unfold Slice.loadAddress
    have hpb2 : Slice.preloadBits ⟨addressBits x, []⟩ 2 = .ok [true, false] := by
      unfold Slice.preloadBits
      rw [if_neg (by simp only [Slice.bits]; omega)]
      show Except.ok ((addressBits x).take 2) = _
      rw [show addressBits x = [true, false]
          ++ (encodeBits 0 1 ++ (encodeBits x.workchain 8 ++ bytesBits x.hash))
          from by simp only [addressBits, List.append_assoc]]
      rw [List.take_left' (by rfl)]
    rw [hpb2]
    show (if ([true, false] : List Bit) = [false, false] then _
      else if ([true, false] : List Bit) = [true, false] then _ else _) = _
    rw [if_neg (by simp), if_pos rfl]
    have hpball : Slice.preloadBits ⟨addressBits x, []⟩ (2 + 1 + 8 + 256)
        = .ok (addressBits x) := by
      unfold Slice.preloadBits
      rw [if_neg (by simp only [Slice.bits]; omega)]
      show Except.ok ((addressBits x).take (2 + 1 + 8 + 256)) = _
      rw [List.take_of_length_le (by omega)]
    rw [hpball]
    have hdrop3 : (addressBits x).drop 3 = encodeBits x.workchain 8 ++ bytesBits x.hash := by
      rw [hsplit3, List.drop_left' h3len]
    have htake8 : ((addressBits x).drop 3).take 8 = encodeBits x.workchain 8 := by
      rw [hdrop3, List.take_left' (encodeBits_length _ _)]
    have hdrop8 : (((addressBits x).drop 3).drop 8).take 256 = bytesBits x.hash := by
      rw [hdrop3, List.drop_left' (encodeBits_length _ _),
        List.take_of_length_le (by omega)]
    have hskip : Slice.skip ⟨addressBits x, []⟩ (2 + 1 + 8 + 256) = .ok ⟨[], []⟩ := by
      unfold Slice.skip
      rw [if_neg (by simp only [Slice.bits]; omega)]
      show Except.ok (⟨(addressBits x).drop (2 + 1 + 8 + 256), []⟩ : Slice) = _
      rw [List.drop_eq_nil_of_le (by omega)]
    rw [hskip]
    show Except.ok (some (Address.mk (bitsToInt8 (((addressBits x).drop 3).take 8))
        (bitsToBytes ((((addressBits x).drop 3).drop 8).take 256))), (⟨[], []⟩ : Slice))
      = Except.ok (some x, (⟨[], []⟩ : Slice))
    rw [htake8, hdrop8, bitsToInt8_encodeBits _ hwl hwh, bitsToBytes_bytesBits _ hhbytes]

/-- Claim C6, witness: the boundary address (workchain `-1`, all-ones hash)
and the null address both round-trip. -/
theorem c6_witness :
    ((((Builder.new 1023).storeAddress
          (some ⟨-1, List.replicate 32 255⟩)).mapError Prod.fst).bind
        (fun b => b.cell.parse.loadAddress)
      = .ok (some ⟨-1, List.replicate 32 255⟩, ⟨[], []⟩))
    ∧ ((((Builder.new 1023).storeAddress none).mapError Prod.fst).bind
        (fun b => b.cell.parse.loadAddress) = .ok (none, ⟨[], []⟩)) :=
  ⟨c6_address_roundtrip (some ⟨-1, List.replicate 32 255⟩) (by decide),
    c6_address_roundtrip none (by simp)⟩

/-! ### Claim C4: MessageX init placement -/

/-- Claim C4: in `MessageX` with a present `init` (and, here, no body), when
the builder's remaining capacity after the init-present bit, minus the one
bit reserved for the body-presence flag, is smaller than `init`'s bit
length, the envelope emits `1` and stores `init` as a reference; otherwise
it emits `0` and embeds `init`'s bits and refs inline.  The hypotheses keep
the surrounding envelope itself within the 1023-bit / 4-ref ceilings. -/
theorem c4_messageX_init_placement (info init : Cell)
    (hinfobits : info.bits.length + 3 ≤ 1023)
    (hinforefs : info.refs.length ≤ 3)
    (hrefs : info.refs.length + init.refs.length ≤ 4) :
    ((1023 - ((info.bits.length : Int) + 1) - 1 < (init.bits.length : Int)) →
      MsgTemplate.MessageX info (some init) none
        = .ok (.mk ((info.bits ++ [true, true]) ++ [false]) (info.refs ++ [init])))
    ∧ ((1023 - ((info.bits.length : Int) + 1) - 1 ≥ (init.bits.length : Int)) →
      info.bits.length + init.bits.length ≤ 1020 →
      MsgTemplate.MessageX info (some init) none
        = .ok (.mk (((info.bits ++ [true, false]) ++ init.bits) ++ [false])
            (info.refs ++ init.refs))) := by
  have hparse : info.parse = ⟨info.bits, info.refs⟩ := rfl
  have hs0 : (Builder.new 1023).storeSlice info.parse
      = .ok ⟨1023, info.bits, info.refs⟩ := by
    rw [Builder.storeSlice_eq]
    rw [if_neg (by
      simp only [hparse, Builder.remainder, Builder.new, List.length_nil]
      push_cast
      omega)]
    rw [if_neg (by
      simp only [hparse, Builder.new, List.length_nil]
      push_cast
      omega)]
    simp [hparse, Builder.new]
  have hb1 : (Builder.mk 1023 info.bits info.refs).storeBit true
      = .ok ⟨1023, info.bits ++ [true], info.refs⟩ :=
    Builder.storeBit_ok _ _ (by
      simp only [Builder.remainder]
      push_cast
      omega)
  have hrem1 : (Builder.mk 1023 (info.bits ++ [true]) info.refs).remainder
      = 1023 - ((info.bits.length : Int) + 1) := by
    simp only [Builder.remainder, List.length_append, List.length_cons, List.length_nil]
    push_cast
    ring
  constructor
  · -- by-reference branch
    intro hcond
    simp only [MsgTemplate.MessageX, hs0, hb1]
    rw [if_neg (by rw [hrem1]; omega)]
    have hb2 : (Builder.mk 1023 (info.bits ++ [true]) info.refs).storeBit true
        = .ok ⟨1023, (info.bits ++ [true]) ++ [true], info.refs⟩ :=
      Builder.storeBit_ok _ _ (by
        simp only [Builder.remainder, List.length_append, List.length_cons, List.length_nil]
        push_cast
        omega)
    have hsr : (Builder.mk 1023 ((info.bits ++ [true]) ++ [true]) info.refs).storeRef init
        = .ok ⟨1023, (info.bits ++ [true]) ++ [true], info.refs ++ [init]⟩ := by
      unfold Builder.storeRef
      rw [if_neg (by push_cast; omega)]
    have hb3 : (Builder.mk 1023 ((info.bits ++ [true]) ++ [true])
          (info.refs ++ [init])).storeBit false
        = .ok ⟨1023, ((info.bits ++ [true]) ++ [true]) ++ [false], info.refs ++ [init]⟩ :=
      Builder.storeBit_ok _ _ (by
        simp only [Builder.remainder, List.length_append, List.length_cons, List.length_nil]
        push_cast
        omega)
    simp only [hb2, hsr, hb3]
    unfold Builder.cell
    simp only [List.append_assoc, List.cons_append, List.nil_append]
  · -- inline branch
    intro hcond hlen
    simp only [MsgTemplate.MessageX, hs0, hb1]
    rw [if_pos (by rw [hrem1]; omega)]
    have hb2 : (Builder.mk 1023 (info.bits ++ [true]) info.refs).storeBit false
        = .ok ⟨1023, (info.bits ++ [true]) ++ [false], info.refs⟩ :=
      Builder.storeBit_ok _ _ (by
        simp only [Builder.remainder, List.length_append, List.length_cons, List.length_nil]
        push_cast
        omega)
    have hparse2 : init.parse = ⟨init.bits, init.refs⟩ := rfl
    have hss : (Builder.mk 1023 ((info.bits ++ [true]) ++ [false]) info.refs).storeSlice
          init.parse
        = .ok ⟨1023, ((info.bits ++ [true]) ++ [false]) ++ init.bits,
            info.refs ++ init.refs⟩ := by
      rw [Builder.storeSlice_eq]
      rw [if_neg (by
        simp only [hparse2, Builder.remainder, List.length_append, List.length_cons,
          List.length_nil]
        push_cast
        omega)]
      rw [if_neg (by
        simp only [hparse2]
        omega)]
      simp [hparse2]
    have hb3 : (Builder.mk 1023 (((info.bits ++ [true]) ++ [false]) ++ init.bits)
          (info.refs ++ init.refs)).storeBit false
        = .ok ⟨1023, ((((info.bits ++ [true]) ++ [false]) ++ init.bits) ++ [false]),
            info.refs ++ init.refs⟩ :=
      Builder.storeBit_ok _ _ (by
        simp only [Builder.remainder, List.length_append, List.length_cons, List.length_nil]
        push_cast
        omega)
    simp only [hb2, hss, hb3]
    unfold Builder.cell
    simp only [List.append_assoc, List.cons_append, List.nil_append]

/-- Claim C4, witness: a small init cell is embedded inline with flag bits
`1, 0` (and the by-reference condition is decidable at every input). -/
theorem c4_witness :
    ((Cell.mk [] []).bits.length + 3 ≤ 1023)
    ∧ MsgTemplate.MessageX (Cell.mk [] []) (some (Cell.mk [true] [])) none
      = .ok (.mk ((((Cell.mk [] []).bits ++ [true, false]) ++ (Cell.mk [true] []).bits)
          ++ [false]) ((Cell.mk [] []).refs ++ (Cell.mk [true] []).refs)) :=
  ⟨by decide,
    (c4_messageX_init_placement (Cell.mk [] []) (Cell.mk [true] [])
      (by decide) (by decide) (by decide)).2 (by decide) (by decide)⟩

/-! ### Claim C9: preload operations and the consumption frame -/

/-- A load result only ever shrinks the slice's bit and ref sequences. -/
def Shrinks {α : Type} (s : Slice) (r : Except Err (α × Slice)) : Prop :=
  match r with
  | .ok p => p.2.bits.length ≤ s.bits.length ∧ p.2.refs.length ≤ s.refs.length
  | .error _ => True

/-- As `Shrinks`, for `skip`, which returns the slice alone. -/
def ShrinksSkip (s : Slice) (r : Except Err Slice) : Prop :=
  match r with
  | .ok s' => s'.bits.length ≤ s.bits.length ∧ s'.refs.length ≤ s.refs.length
  | .error _ => True

/-- A successful `preloadBits` means the requested size was positive and
available. -/
theorem Slice.preloadBits_ok_length (s : Slice) (n : Nat) (l : List Bit)
    (h : s.preloadBits n = .ok l) : ¬ (n = 0 ∨ s.bits.length < n) := by
  unfold Slice.preloadBits at h
  intro hc
  rw [if_pos hc] at h
  exact Except.noConfusion h

/-- `preloadBits` agrees with `loadBits`. -/
theorem Slice.preload_load_bits (s : Slice) (n : Nat) :
    s.preloadBits n = (s.loadBits n).map Prod.fst := by
  unfold Slice.preloadBits Slice.loadBits
  split <;> rfl

/-- `preloadUint` agrees with `loadUint`. -/
theorem Slice.preload_load_uint (s : Slice) (n : Nat) :
    s.preloadUint n = (s.loadUint n).map Prod.fst := by
  unfold Slice.preloadUint Slice.loadUint
  rw [Slice.preload_load_bits]
  rcases s.loadBits n with e | ⟨l, s'⟩ <;> rfl

/-- `preloadInt` agrees with `loadInt`. -/
theorem Slice.preload_load_int (s : Slice) (n : Nat) :
    s.preloadInt n = (s.loadInt n).map Prod.fst := by
  unfold Slice.preloadInt Slice.loadInt
  rw [Slice.preload_load_uint]
  rcases s.loadUint n with e | ⟨u, s'⟩ <;> rfl

/-- `preloadBytes` agrees with `loadBytes`. -/
theorem Slice.preload_load_bytes (s : Slice) (n : Nat) :
    s.preloadBytes n = (s.loadBytes n).map Prod.fst := by
  unfold Slice.preloadBytes Slice.loadBytes
  rw [Slice.preload_load_bits]
  rcases s.loadBits n with e | ⟨l, s'⟩ <;> rfl

/-- `preloadString` agrees with `loadString`. -/
theorem Slice.preload_load_string (s : Slice) (osize : Option Nat) :
    s.preloadString osize = (s.loadString osize).map Prod.fst := by
  rcases osize with _ | n
  · have hpby := s.preload_load_bytes s.bits.length
    rcases hby : s.loadBytes s.bits.length with e | ⟨l, s'⟩ <;>
      rw [hby] at hpby <;>
      simp [Slice.preloadString, Slice.loadString, hby, hpby, Except.map]
  · have hpby := s.preload_load_bytes n
    rcases hby : s.loadBytes n with e | ⟨l, s'⟩ <;>
      rw [hby] at hpby <;>
      simp [Slice.preloadString, Slice.loadString, hby, hpby, Except.map]

/-- A successful `preloadBits` lets `skip` of the same size succeed. -/
theorem Slice.skip_of_preloadBits_ok (s : Slice) (n : Nat) (l : List Bit)
    (h : s.preloadBits n = .ok l) :
    s.skip n = .ok ⟨s.bits.drop n, s.refs⟩ := by
  have := s.preloadBits_ok_length n l h
  unfold Slice.skip
  rw [if_neg (by omega)]

/-- `preloadAddress` agrees with `loadAddress`. -/
theorem Slice.preload_load_address (s : Slice) :
    s.preloadAddress = (s.loadAddress).map Prod.fst := by
  rcases hpb2 : s.preloadBits 2 with e | flag
  · simp [Slice.preloadAddress, Slice.loadAddress, hpb2, Except.map]
  · by_cases hf0 : flag = [false, false]
    · have hskip := s.skip_of_preloadBits_ok 2 flag hpb2
      simp [Slice.preloadAddress, Slice.loadAddress, hpb2, hf0, hskip, Except.map]
    · by_cases hf1 : flag = [true, false]
      · rcases hpb267 : s.preloadBits 267 with e | bits
        · simp [Slice.preloadAddress, Slice.loadAddress, hpb2, hf0, hf1, hpb267, Except.map]
        · have hskip := s.skip_of_preloadBits_ok 267 bits hpb267
          simp [Slice.preloadAddress, Slice.loadAddress, hpb2, hf0, hf1, hpb267, hskip,
            Except.map]
      · simp [Slice.preloadAddress, Slice.loadAddress, hpb2, hf0, hf1, Except.map]

/-- A successful `preloadUint` means the bits were available. -/
theorem Slice.preloadUint_ok_length (s : Slice) (n : Nat) (u : Nat)
    (h : s.preloadUint n = .ok u) : ¬ (n = 0 ∨ s.bits.length < n) := by
  unfold Slice.preloadUint at h
  rcases hpb : s.preloadBits n with e | l
  · rw [hpb] at h
    exact Except.noConfusion h
  · exact s.preloadBits_ok_length n l hpb

/-- `preloadCoins` agrees with `loadCoins`. -/
theorem Slice.preload_load_coins (s : Slice) :
    s.preloadCoins = (s.loadCoins).map Prod.fst := by
  rcases hpu : s.preloadUint 4 with e | len
  · simp [Slice.preloadCoins, Slice.loadCoins, hpu, Except.map]
  · have h4 := s.preloadUint_ok_length 4 len hpu
    by_cases hz : len = 0
    · have hskip : s.skip 4 = .ok ⟨s.bits.drop 4, s.refs⟩ := by
        unfold Slice.skip
        rw [if_neg (by omega)]
      simp [Slice.preloadCoins, Slice.loadCoins, hpu, hz, hskip, Except.map]
    · rcases hpb : s.preloadBits (4 + len * 8) with e | bits
      · simp [Slice.preloadCoins, Slice.loadCoins, hpu, hz, hpb, Except.map]
      · have hskip := s.skip_of_preloadBits_ok (4 + len * 8) bits hpb
        simp [Slice.preloadCoins, Slice.loadCoins, hpu, hz, hpb, hskip, Except.map]

/-- `loadBits` only shrinks the slice. -/
theorem Slice.shrinks_loadBits (s : Slice) (n : Nat) : Shrinks s (s.loadBits n) := by
  unfold Slice.loadBits
  split
  · trivial
  · exact ⟨by simp, by simp⟩

/-- `loadRef` only shrinks the slice. -/
theorem Slice.shrinks_loadRef (s : Slice) : Shrinks s (s.loadRef) := by
  unfold Slice.loadRef
  split
  · trivial
  · rename_i r rest heq
    exact ⟨by simp, by simp [heq]⟩

/-- `loadBit` only shrinks the slice. -/
theorem Slice.shrinks_loadBit (s : Slice) : Shrinks s (s.loadBit) := by
  unfold Slice.loadBit
  split
  · trivial
  · rename_i b rest heq
    exact ⟨by simp [heq], by simp⟩

/-- `loadUint` only shrinks the slice. -/
theorem Slice.shrinks_loadUint (s : Slice) (n : Nat) : Shrinks s (s.loadUint n) := by
  have := s.shrinks_loadBits n
  unfold Slice.loadUint
  rcases h : s.loadBits n with e | ⟨l, s'⟩
  · trivial
  · rw [h] at this
    exact this

/-- `loadInt` only shrinks the slice. -/
theorem Slice.shrinks_loadInt (s : Slice) (n : Nat) : Shrinks s (s.loadInt n) := by
  have := s.shrinks_loadUint n
  unfold Slice.loadInt
  rcases h : s.loadUint n with e | ⟨u, s'⟩
  · trivial
  · rw [h] at this
    exact this

/-- `loadBytes` only shrinks the slice. -/
theorem Slice.shrinks_loadBytes (s : Slice) (n : Nat) : Shrinks s (s.loadBytes n) := by
  have := s.shrinks_loadBits n
  unfold Slice.loadBytes
  rcases h : s.loadBits n with e | ⟨l, s'⟩
  · trivial
  · rw [h] at this
    exact this

/-- `loadString` only shrinks the slice. -/
theorem Slice.shrinks_loadString (s : Slice) (osize : Option Nat) :
    Shrinks s (s.loadString osize) := by
  rcases osize with _ | n
  · have hsh := s.shrinks_loadBytes s.bits.length
    rcases hby : s.loadBytes s.bits.length with e | ⟨l, s'⟩ <;>
      rw [hby] at hsh <;>
      simp only [Shrinks] at hsh ⊢ <;>
      simp [Slice.loadString, hby, Shrinks]
    exact hsh
  · have hsh := s.shrinks_loadBytes n
    rcases hby : s.loadBytes n with e | ⟨l, s'⟩ <;>
      rw [hby] at hsh <;>
      simp only [Shrinks] at hsh ⊢ <;>
      simp [Slice.loadString, hby, Shrinks]
    exact hsh

/-- `skip` only shrinks the slice. -/
theorem Slice.shrinks_skip (s : Slice) (n : Nat) : ShrinksSkip s (s.skip n) := by
  unfold Slice.skip
  split
  · trivial
  · exact ⟨by simp, by simp⟩

/-- `loadAddress` only shrinks the slice. -/
theorem Slice.shrinks_loadAddress (s : Slice) : Shrinks s (s.loadAddress) := by
  rcases hpb2 : s.preloadBits 2 with e | flag
  · simp [Slice.loadAddress, hpb2, Shrinks]
  · by_cases hf0 : flag = [false, false]
    · have hskip := s.skip_of_preloadBits_ok 2 flag hpb2
      simp [Slice.loadAddress, hpb2, hf0, hskip, Shrinks]
    · by_cases hf1 : flag = [true, false]
      · rcases hpb267 : s.preloadBits 267 with e | bits
        · simp [Slice.loadAddress, hpb2, hf0, hf1, hpb267, Shrinks]
        · have hskip := s.skip_of_preloadBits_ok 267 bits hpb267
          simp [Slice.loadAddress, hpb2, hf0, hf1, hpb267, hskip, Shrinks]
      · simp [Slice.loadAddress, hpb2, hf0, hf1, Shrinks]

/-- `loadCoins` only shrinks the slice. -/
theorem Slice.shrinks_loadCoins (s : Slice) : Shrinks s (s.loadCoins) := by
  rcases hpu : s.preloadUint 4 with e | len
  · simp [Slice.loadCoins, hpu, Shrinks]
  · have h4 := s.preloadUint_ok_length 4 len hpu
    by_cases hz : len = 0
    · have hskip : s.skip 4 = .ok ⟨s.bits.drop 4, s.refs⟩ := by
        unfold Slice.skip
        rw [if_neg (by omega)]
      simp [Slice.loadCoins, hpu, hz, hskip, Shrinks]
    · rcases hpb : s.preloadBits (4 + len * 8) with e | bits
      · simp [Slice.loadCoins, hpu, hz, hpb, Shrinks]
      · have hskip := s.skip_of_preloadBits_ok (4 + len * 8) bits hpb
        simp [Slice.loadCoins, hpu, hz, hpb, hskip, Shrinks]

/-- Claim C9: every `preload*` operation returns exactly the value its
`load*` counterpart would (and fails exactly when it would), while producing
no successor slice at all — in this embedding a preloader is a function of
the unchanged slice; and the slice's bit/ref lengths only ever decrease
under the `load*`/`skip` operations. -/
theorem c9_preload_frame (s : Slice) (n : Nat) (osize : Option Nat) :
    (s.preloadRef = (s.loadRef).map Prod.fst)
    ∧ (s.preloadBit = (s.loadBit).map Prod.fst)
    ∧ (s.preloadBits n = (s.loadBits n).map Prod.fst)
    ∧ (s.preloadInt n = (s.loadInt n).map Prod.fst)
    ∧ (s.preloadUint n = (s.loadUint n).map Prod.fst)
    ∧ (s.preloadBytes n = (s.loadBytes n).map Prod.fst)
    ∧ (s.preloadString osize = (s.loadString osize).map Prod.fst)
    ∧ (s.preloadAddress = (s.loadAddress).map Prod.fst)
    ∧ (s.preloadCoins = (s.loadCoins).map Prod.fst)
    ∧ Shrinks s (s.loadRef)
    ∧ Shrinks s (s.loadBit)
    ∧ Shrinks s (s.loadBits n)
    ∧ Shrinks s (s.loadInt n)
    ∧ Shrinks s (s.loadUint n)
    ∧ Shrinks s (s.loadBytes n)
    ∧ Shrinks s (s.loadString osize)
    ∧ Shrinks s (s.loadAddress)
    ∧ Shrinks s (s.loadCoins)
    ∧ ShrinksSkip s (s.skip n) :=
  ⟨by unfold Slice.preloadRef Slice.loadRef; rcases s.refs with _ | ⟨r, rest⟩ <;> rfl,
    by unfold Slice.preloadBit Slice.loadBit; rcases hb : s.bits with _ | ⟨b, rest⟩ <;> rfl,
    s.preload_load_bits n,
    s.preload_load_int n,
    s.preload_load_uint n,
    s.preload_load_bytes n,
    s.preload_load_string osize,
    s.preload_load_address,
    s.preload_load_coins,
    s.shrinks_loadRef,
    s.shrinks_loadBit,
    s.shrinks_loadBits n,
    s.shrinks_loadInt n,
    s.shrinks_loadUint n,
    s.shrinks_loadBytes n,
    s.shrinks_loadString osize,
    s.shrinks_loadAddress,
    s.shrinks_loadCoins,
    s.shrinks_skip n⟩

/-! ### Claim C3: capacity invariant and atomic rejection -/

/-- One `store*` call of the public Builder interface, with its argument.
Arguments carry the TypeScript-level types: bits are `Bit = 0 | 1` values,
strings are their UTF-8 byte sequences, coins their nanocoin value. -/
inductive StoreOp where
  | bit (x : Bit)
  | bits (l : List Bit)
  | ref (c : Cell)
  | slice (s : Slice)
  | uint (v : Int) (len : Nat)
  | int (v : Int) (len : Nat)
  | bytes (l : List Nat)
  | str (l : List Nat)
  | address (a : Option Address)
  | coins (c : Int)

/-- Apply one `store*` call to a builder. -/
def StoreOp.apply (b : Builder) : StoreOp → Except (Err × Builder) Builder
  | .bit x => b.storeBit x
  | .bits l => b.storeBits l
  | .ref c => b.storeRef c
  | .slice s => b.storeSlice s
  | .uint v len => b.storeUint v len
  | .int v len => b.storeInt v len
  | .bytes l => b.storeBytes l
  | .str l => b.storeString l
  | .address a => b.storeAddress a
  | .coins c => b.storeCoins c

/-- Well-formedness of an operation's argument, as promised by the external
`Address` type: an 8-bit signed workchain and a 256-bit (32-byte) hash.
All other arguments are unconstrained. -/
def StoreOp.WF : StoreOp → Prop
  | .address (some a) => -128 ≤ a.workchain ∧ a.workchain < 128 ∧ a.hash.length = 32
  | _ => True

/-- The specification invariant: bits within capacity, at most 4 refs. -/
def BuilderInv (b : Builder) : Prop :=
  b.bits.length ≤ b.size ∧ b.refs.length ≤ 4

/-- What one step must satisfy: success preserves the invariant, failure
returns with the builder object exactly as it was (and so still within the
invariant). -/
def StepOK (b : Builder) (r : Except (Err × Builder) Builder) : Prop :=
  match r with
  | .ok b' => BuilderInv b'
  | .error (_, b'') => b'' = b ∧ BuilderInv b''

/-- Builders reachable from `new Builder(C)` through well-typed `store*`
calls. -/
inductive Reachable : Builder → Prop where
  | new (C : Nat) : Reachable (Builder.new C)
  | step (b : Builder) (op : StoreOp) (b' : Builder) :
      Reachable b → op.WF → StoreOp.apply b op = .ok b' → Reachable b'

/-- The length of the 267-bit address layout. -/
theorem addressBits_length (a : Address) (hh : a.hash.length = 32) :
    (addressBits a).length = 267 := by
  simp only [addressBits, List.length_append, List.length_cons, List.length_nil,
    encodeBits_length, bytesBits_length, hh]

/-- The single-step lemma: each well-formed `store*` call either succeeds
preserving the invariant or fails leaving the builder untouched. -/
theorem storeOp_stepOK (b : Builder) (op : StoreOp) (hInv : BuilderInv b) (hwf : op.WF) :
    StepOK b (StoreOp.apply b op) := by
  rcases op with x | l | c | s | ⟨v, len⟩ | ⟨v, len⟩ | l | l | a | c
  · -- storeBit
    simp only [StoreOp.apply]
    unfold Builder.storeBit
    split
    · exact ⟨rfl, hInv⟩
    · rename_i hcond
      refine ⟨?_, hInv.2⟩
      simp only [List.length_append, List.length_cons, List.length_nil]
      simp only [Builder.remainder] at hcond
      omega
  · -- storeBits
    simp only [StoreOp.apply]
    rw [Builder.storeBits_eq]
    split
    · exact ⟨rfl, hInv⟩
    · rename_i hcond
      refine ⟨?_, hInv.2⟩
      simp only [List.length_append]
      simp only [Builder.remainder] at hcond
      omega
  · -- storeRef
    simp only [StoreOp.apply]
    unfold Builder.storeRef
    split
    · exact ⟨rfl, hInv⟩
    · rename_i hcond
      refine ⟨hInv.1, ?_⟩
      simp only [List.length_append, List.length_cons, List.length_nil]
      omega
  · -- storeSlice
    simp only [StoreOp.apply]
    rw [Builder.storeSlice_eq]
    split
    · exact ⟨rfl, hInv⟩
    · split
      · exact ⟨rfl, hInv⟩
      · rename_i hbits hrefs
        constructor
        · simp only [List.length_append]
          simp only [Builder.remainder] at hbits
          omega
        · simp only [List.length_append]
          omega
  · -- storeUint
    simp only [StoreOp.apply]
    rw [Builder.storeUint_eq]
    split
    · exact ⟨rfl, hInv⟩
    · split
      · exact ⟨rfl, hInv⟩
      · rename_i hrange hcap
        refine ⟨?_, hInv.2⟩
        simp only [List.length_append, encodeBits_length]
        simp only [Builder.remainder] at hcap
        omega
  · -- storeInt
    simp only [StoreOp.apply]
    by_cases hlen0 : len = 0
    · subst hlen0
      simp only [Builder.storeInt, if_true]
      rw [if_pos (by omega)]
      exact ⟨rfl, hInv⟩
    · rw [Builder.storeInt_eq _ _ _ (by omega)]
      split
      · exact ⟨rfl, hInv⟩
      · split
        · exact ⟨rfl, hInv⟩
        · rename_i hrange hcap
          refine ⟨?_, hInv.2⟩
          simp only [List.length_append, encodeBits_length]
          simp only [Builder.remainder] at hcap
          omega
  · -- storeBytes
    simp only [StoreOp.apply]
    rw [Builder.storeBytes_eq]
    split
    · exact ⟨rfl, hInv⟩
    · rename_i hcap
      refine ⟨?_, hInv.2⟩
      simp only [List.length_append, bytesBits_length]
      simp only [Builder.remainder] at hcap
      omega
  · -- storeString
    simp only [StoreOp.apply]
    unfold Builder.storeString stringToBytes
    rw [Builder.storeBytes_eq]
    split
    · exact ⟨rfl, hInv⟩
    · rename_i hcap
      refine ⟨?_, hInv.2⟩
      simp only [List.length_append, bytesBits_length]
      simp only [Builder.remainder] at hcap
      omega
  · -- storeAddress
    rcases a with _ | a
    · simp only [StoreOp.apply, Builder.storeAddress]
      rw [Builder.storeBits_eq]
      split
      · exact ⟨rfl, hInv⟩
      · rename_i hcond
        refine ⟨?_, hInv.2⟩
        simp only [List.length_append, List.length_cons, List.length_nil]
        simp only [Builder.remainder, List.length_cons, List.length_nil] at hcond
        omega
    · obtain ⟨hwl, hwh, hh⟩ := hwf
      simp only [StoreOp.apply]
      rw [Builder.storeAddress_some_eq _ _ hwl hwh hh]
      split
      · exact ⟨rfl, hInv⟩
      · rename_i hcap
        refine ⟨?_, hInv.2⟩
        simp only [List.length_append, addressBits_length _ hh]
        simp only [Builder.remainder] at hcap
        omega
  · -- storeCoins
    simp only [StoreOp.apply, Builder.storeCoins]
    split
    · exact ⟨rfl, hInv⟩
    · split
      · -- c = 0: storeUint 0 4
        rw [Builder.storeUint_eq]
        split
        · exact ⟨rfl, hInv⟩
        · split
          · exact ⟨rfl, hInv⟩
          · rename_i hrange hcap
            refine ⟨?_, hInv.2⟩
            simp only [List.length_append, encodeBits_length]
            simp only [Builder.remainder] at hcap
            omega
      · -- c > 0
        rename_i hcneg hc0
        split
        · exact ⟨rfl, hInv⟩
        · rename_i hcap
          have hcpos : 0 < c := by omega
          by_cases hrange : (((hexLen c.toNat + 1) / 2 : Nat) : Int) < 0
              ∨ (((hexLen c.toNat + 1) / 2 : Nat) : Int) ≥ 2 ^ (4 : Nat)
          · have herr : b.storeUint (((hexLen c.toNat + 1) / 2 : Nat) : Int) 4
                = .error (.rangeError, b) := by
              rw [Builder.storeUint_eq, if_pos hrange]
            simp only [herr]
            exact ⟨rfl, hInv⟩
          · have hok : b.storeUint (((hexLen c.toNat + 1) / 2 : Nat) : Int) 4
                = .ok ⟨b.size, b.bits ++ encodeBits (((hexLen c.toNat + 1) / 2 : Nat) : Int) 4,
                    b.refs⟩ := by
              rw [Builder.storeUint_eq, if_neg hrange, if_neg (by
                simp only [Builder.remainder] at hcap ⊢
                push_cast at hcap ⊢
                omega)]
            simp only [hok]
            rw [Builder.storeUint_eq]
            rw [if_neg (by
              have hfit := coins_lt_pow c hcpos
              unfold coinsByteLen at hfit
              omega)]
            rw [if_neg (by
              simp only [Builder.remainder, List.length_append, encodeBits_length] at hcap ⊢
              push_cast at hcap ⊢
              omega)]
            refine ⟨?_, hInv.2⟩
            simp only [List.length_append, encodeBits_length]
            simp only [Builder.remainder] at hcap
            push_cast at hcap
            omega

/-- Claim C3: every Builder reachable from `new Builder(C)` through
well-typed `store*` calls satisfies `bits.length ≤ C` and `refs.length ≤ 4`,
and on such a builder every further well-formed `store*` call either
succeeds preserving the invariant or is rejected with the builder's bits and
refs exactly as they were before the call. -/
theorem c3_invariant_atomic (b : Builder) (hreach : Reachable b) :
    BuilderInv b ∧ ∀ op : StoreOp, op.WF → StepOK b (StoreOp.apply b op) := by
  have hInv : BuilderInv b := by
    induction hreach with
    | new C => exact ⟨by simp [Builder.new], by simp [Builder.new]⟩
    | step b0 op b' h0 hwf hok ih =>
      have := storeOp_stepOK b0 op ih hwf
      rw [hok] at this
      exact this
  exact ⟨hInv, fun op hwf => storeOp_stepOK b op hInv hwf⟩

/-- Claim C3, witness: a Builder of capacity 4 holding 4 bits satisfies the
invariant and rejects a 5th bit with `BitOverflow`, its bits unchanged. -/
theorem c3_witness :
    BuilderInv ⟨4, [true, true, true, true], []⟩
    ∧ StepOK ⟨4, [true, true, true, true], []⟩
        (StoreOp.apply ⟨4, [true, true, true, true], []⟩ (.bit true))
    ∧ StoreOp.apply ⟨4, [true, true, true, true], []⟩ (.bit true)
      = .error (.bitOverflow, ⟨4, [true, true, true, true], []⟩) :=
  ⟨(c3_invariant_atomic ⟨4, [true, true, true, true], []⟩
      (.step (Builder.new 4) (.bits [true, true, true, true]) _
        (.new 4) trivial rfl)).1,
    (c3_invariant_atomic ⟨4, [true, true, true, true], []⟩
      (.step (Builder.new 4) (.bits [true, true, true, true]) _
        (.new 4) trivial rfl)).2 (.bit true) trivial,
    rfl⟩
